import Mathlib

/-!
urilite: percent-encoding codec and HTTP/HTTPS URI parser.

A shallow embedding of `include/urilite.h`.  A `std::string` is a list of
`char`s, each kept as its unsigned value `0..255`; `c_str()` adds the
terminating NUL, which the parser's pointer reads as the value `0`.
-/

namespace urilite

/-- The contents of a `std::string`: its `char`s as unsigned values. -/
abbrev Str := List Nat

/-- Every element is the unsigned value of a `char`. -/
def isBytes (s : Str) : Prop := ∀ c ∈ s, c < 256

instance (s : Str) : Decidable (isBytes s) := by
  unfold isBytes; infer_instance

/-- The `char`s of an ASCII string literal. -/
def bytes (s : String) : Str := s.toList.map Char.toNat

/-! ## Space policies (`class PLUS`, `class NO_PLUS`) -/

/-- The two static members shared by `PLUS` and `NO_PLUS`. -/
structure SpaceClass where
  space_encoded : Str
  plus_decoded : Nat
deriving DecidableEq, Repr

/-- `class PLUS`: `space_encoded() = "+"`, `plus_decoded() = ' '`. -/
def PLUS : SpaceClass := ⟨[43], 32⟩

/-- `class NO_PLUS`: `space_encoded() = "%20"`, `plus_decoded() = '+'`. -/
def NO_PLUS : SpaceClass := ⟨[37, 50, 48], 43⟩

/-! ## Reserved-character tests (`RFC2396::match`, `RFC3986::match`) -/

/-- `RFC2396::match`: false on letters, digits and `-_.~!'()`, true otherwise. -/
def RFC2396.match_ (c : Nat) : Bool :=
  if (97 ≤ c ∧ c ≤ 122)
    ∨ (65 ≤ c ∧ c ≤ 90)
    ∨ (48 ≤ c ∧ c ≤ 57)
    ∨ c = 45 ∨ c = 95 ∨ c = 46 ∨ c = 126
    ∨ c = 33 ∨ c = 39 ∨ c = 40 ∨ c = 41 then false
  else true

/-- `RFC3986::match`: false on letters, digits and `-_.~`, true otherwise. -/
def RFC3986.match_ (c : Nat) : Bool :=
  if (97 ≤ c ∧ c ≤ 122)
    ∨ (65 ≤ c ∧ c ≤ 90)
    ∨ (48 ≤ c ∧ c ≤ 57)
    ∨ c = 45 ∨ c = 95 ∨ c = 46 ∨ c = 126 then false
  else true

/-! ## Stream formatting used by the codec -/

/-- One lowercase hexadecimal digit, as `std::hex` prints it. -/
def hexDigit (n : Nat) : Nat := if n < 10 then 48 + n else 87 + n

/-- Output of `std::hex << std::setw(2) << std::setfill('0') << (c & 0xff)`:
the value `c & 0xff` in lowercase hexadecimal, padded on the left to two digits. -/
def hex2 (c : Nat) : Str := [hexDigit ((c % 256) / 16), hexDigit ((c % 256) % 16)]

/-- Value of a hexadecimal digit character, if it is one. -/
def hexVal (c : Nat) : Option Nat :=
  if 48 ≤ c ∧ c ≤ 57 then some (c - 48)
  else if 97 ≤ c ∧ c ≤ 102 then some (c - 87)
  else if 65 ≤ c ∧ c ≤ 70 then some (c - 55)
  else none

/-- The `isspace` characters of the classic locale, skipped by formatted input. -/
def isSpace (c : Nat) : Bool := c = 32 ∨ (9 ≤ c ∧ c ≤ 13)

/-- The `int d` left by `std::istringstream iss(t); iss >> std::hex >> d;` for
the at most two characters `t = s.substr(i+1, 2)` (C++11 `num_get`): leading
white space is skipped, one sign is accepted, then hexadecimal digits are read
up to the first other character.  When a character that is not white space
is there but no digit can be read, the extraction fails and C++11 stores `0`.
When `t` is empty or all white space the stream's sentry fails and the code
leaves `int d` unassigned: the byte it then emits is indeterminate, and the
`0` returned here is a placeholder only.  `extraction_assigns` tells the two
cases apart, and the statements that give the bytes decoded from an arbitrary
string (C14, C18) are made for strings with `escapes_assigned`. -/
def hexExtract : Str → Int
  | [] => 0
  | [a] =>
    match hexVal a with
    | some x => x
    | none => 0
  | a :: b :: _ =>
    match hexVal a, hexVal b with
    | some x, some y => 16 * x + y
    | some x, none => x
    | none, some y =>
      if isSpace a ∨ a = 43 then y
      else if a = 45 then - (y : Int)
      else 0
    | none, none => 0

/-- Whether `iss >> std::hex >> d` on `t = s.substr(i+1, 2)` assigns `d`: the
sentry of the extraction skips white space and fails at the end of the stream,
so `d` is assigned exactly when `t` holds a character that is not white
space. -/
def extraction_assigns (t : Str) : Bool := t.any fun c => !isSpace c

/-- No `%` of the string is followed by nothing or by white space only: the at
most two characters behind every `%` hold one that is not white space, so
that every extraction `decode` makes on the string assigns its `int d`. -/
def escapes_assigned : Str → Bool
  | [] => true
  | c :: cs => (c != 37 || extraction_assigns (cs.take 2)) && escapes_assigned cs

/-- The unsigned value of `static_cast<char>(d)`. -/
def to_char (d : Int) : Nat := (d % 256).toNat

/-! ## `template<T, U> class encoder` -/

/-- `encoder<T, U>::encode`, with `T::match` passed as `tmatch`. -/
def encoder.encode (tmatch : Nat → Bool) (U : SpaceClass) : Str → Str
  | [] => []
  | c :: cs =>
    (if !tmatch c then [c]
     else if c = 32 then U.space_encoded
     else 37 :: hex2 c) ++ encoder.encode tmatch U cs

/-- The `for` loop of `encoder<T, U>::decode` over the characters from index
`i` on.  `skip` counts pending index increments: after a `%` the body reads
`s.substr(i+1, 2)` and executes `i += 2`, so the next two characters (when
present) are stepped over. -/
def encoder.decode_loop (U : SpaceClass) : Nat → Str → Str
  | _, [] => []
  | skip + 1, _ :: cs => encoder.decode_loop U skip cs
  | 0, c :: cs =>
    if c = 43 then U.plus_decoded :: encoder.decode_loop U 0 cs
    else if c = 37 then to_char (hexExtract (cs.take 2)) :: encoder.decode_loop U 2 cs
    else c :: encoder.decode_loop U 0 cs

/-- `encoder<T, U>::decode`. -/
def encoder.decode (U : SpaceClass) (s : Str) : Str := encoder.decode_loop U 0 s

/-! ## Library operations used by `class uri` -/

/-- `operator<` on `std::string`: lexicographic comparison of the characters as
unsigned values, a proper prefix being smaller. -/
def string_lt : Str → Str → Bool
  | [], [] => false
  | [], _ :: _ => true
  | _ :: _, [] => false
  | a :: as, b :: bs =>
    if a < b then true
    else if b < a then false
    else string_lt as bs

/-- `std::multimap<std::string, std::string>::insert` on the key-ordered
sequence of elements: the new element is placed at the upper bound of its key,
that is before the first element whose key is greater. -/
def multimap_insert (kv : Str × Str) : List (Str × Str) → List (Str × Str)
  | [] => [kv]
  | x :: xs =>
    if string_lt kv.1 x.1 then kv :: x :: xs
    else x :: multimap_insert kv xs

/-- `std::sort(v.begin(), v.end())` on a vector of strings: the elements in
ascending order of `operator<`. -/
def sort (v : List Str) : List Str :=
  List.insertionSort (fun a b => string_lt b a = false) v

/-- `boost::algorithm::join(v, sep)`. -/
def join : List Str → Str → Str
  | [], _ => []
  | [x], _ => x
  | x :: y :: rest, sep => x ++ sep ++ join (y :: rest) sep

/-- Decimal output of an unsigned integer by `operator<<`. -/
def decimal (n : Nat) : Str := (Nat.toDigits 10 n).map Char.toNat

/-- `boost::lexical_cast<unsigned short>` on a string: the value of a non-empty
string of decimal digits that fits 16 bits; `none` stands for
`boost::bad_lexical_cast`. -/
def lexical_cast_ushort (t : Str) : Option Nat :=
  if t = [] ∨ ¬ (∀ c ∈ t, 48 ≤ c ∧ c ≤ 57) then none
  else
    let n := t.foldl (fun acc c => 10 * acc + (c - 48)) 0
    if n ≤ 65535 then some n else none

/-! ## `class uri` -/

/-- The exceptions thrown by `uri::parse`. -/
inductive ParseError where
  /-- `std::invalid_argument("uri is too short")` -/
  | TooShort
  /-- `std::invalid_argument("invalid scheme")` -/
  | InvalidScheme
  /-- `std::invalid_argument("host not found")` -/
  | HostNotFound
  /-- `std::invalid_argument("invalid port")` -/
  | InvalidPort
  /-- `std::invalid_argument("invalid query")` -/
  | InvalidQuery
  /-- `std::invalid_argument("invalid query: key is empty")` -/
  | InvalidQueryKeyEmpty
  /-- `boost::bad_lexical_cast`, from `boost::lexical_cast<unsigned short>` -/
  | BadLexicalCast
deriving DecidableEq, Repr

deriving instance DecidableEq for Except

/-- The data members of `class uri`; `query_` lists the elements of the
multimap in iteration order. -/
structure uri where
  secure_ : Bool
  host_ : Str
  port_ : Nat
  path_ : Str
  fragment_ : Str
  query_ : List (Str × Str)
deriving DecidableEq, Repr

namespace uri

/-- `uri::encode`. -/
def encode (s : Str) : Str := encoder.encode RFC3986.match_ NO_PLUS s

/-- `uri::decode`. -/
def decode (s : Str) : Str := encoder.decode NO_PLUS s

/-- `uri::encode2`. -/
def encode2 (s : Str) : Str := encoder.encode RFC3986.match_ PLUS s

/-- `uri::decode2`. -/
def decode2 (s : Str) : Str := encoder.decode PLUS s

/-- `uri::encodeURIComponent`. -/
def encodeURIComponent (s : Str) : Str := encoder.encode RFC2396.match_ NO_PLUS s

/-- `uri::encodeURIComponent2`. -/
def encodeURIComponent2 (s : Str) : Str := encoder.encode RFC2396.match_ PLUS s

/-- `uri::append_query`. -/
def append_query (u : uri) (key value : Str) : uri :=
  { u with query_ := multimap_insert (key, value) u.query_ }

/-- `uri::secure`. -/
def secure (u : uri) : Bool := u.secure_

/-- `uri::scheme`. -/
def scheme (u : uri) : Str := if u.secure_ then bytes "https" else bytes "http"

/-- `uri::host`. -/
def host (u : uri) : Str := u.host_

/-- `uri::port`. -/
def port (u : uri) : Nat := u.port_

/-- `uri::path`. -/
def path (u : uri) : Str := u.path_

/-- `uri::fragment`. -/
def fragment (u : uri) : Str := u.fragment_

/-- `uri::query`: the multimap, as the sequence its iteration visits. -/
def query (u : uri) : List (Str × Str) := u.query_

/-- `uri::query_string`. -/
def query_string (u : uri) : Str :=
  join (sort (u.query_.map fun param => encode param.1 ++ [61] ++ encode param.2)) [38]

/-- `uri::str`. -/
def str (u : uri) : Str :=
  (if u.secure_ then bytes "https://" else bytes "http://")
    ++ u.host_
    ++ (if !((!u.secure_ && u.port_ == 80) || (u.secure_ && u.port_ == 443))
        then 58 :: decimal u.port_ else [])
    ++ u.path_
    ++ (if !u.query_.isEmpty then 63 :: u.query_string else [])
    ++ (if !u.fragment_.isEmpty then 35 :: u.fragment_ else [])

/-- `uri::authority`. -/
def authority (u : uri) : Str :=
  u.host_
    ++ (if !((!u.secure_ && u.port_ == 80) || (u.secure_ && u.port_ == 443))
        then 58 :: decimal u.port_ else [])

/-- `uri::relative`. -/
def relative (u : uri) : Str :=
  u.path_ ++ (if !u.query_.isEmpty then 63 :: u.query_string else [])

end uri

/-! ## `uri::parse`

The pointer `c` into `s.c_str()` is kept as the list of characters from `c`
on; at the end of the list `*c` is the terminating NUL. -/

/-- The character `*c`. -/
def peek (c : Str) : Nat := c.headD 0

/-- A loop `while (!stop(*c)) { os << *c; ++c; }`: the characters written to
`os` and the pointer where the loop stops.  Every loop of `parse` stops at NUL. -/
def scan (stop : Nat → Bool) : Str → Str × Str
  | [] => ([], [])
  | c :: cs =>
    if stop c then ([], c :: cs)
    else ((c :: (scan stop cs).1), (scan stop cs).2)

/-- Loop condition of the host scan. -/
def host_stop (c : Nat) : Bool := c = 58 ∨ c = 47 ∨ c = 63 ∨ c = 35 ∨ c = 0

/-- Loop condition of the port scan. -/
def port_stop (c : Nat) : Bool := c = 47 ∨ c = 63 ∨ c = 35 ∨ c = 0

/-- Loop condition of the path scan. -/
def path_stop (c : Nat) : Bool := c = 63 ∨ c = 35 ∨ c = 0

/-- Loop condition of the query scan. -/
def query_stop (c : Nat) : Bool := c = 35 ∨ c = 0

/-- Loop condition of the fragment scan. -/
def fragment_stop (c : Nat) : Bool := c = 0

/-- The scheme check of `parse` (`// check scheme` up to the second `/`):
the `secure` flag and the pointer behind `//`. -/
def parse_scheme (c : Str) : Except ParseError (Bool × Str) :=
  if !(peek c = 104 ∨ peek c = 72) then .error .InvalidScheme else
  let c := c.tail
  if !(peek c = 116 ∨ peek c = 84) then .error .InvalidScheme else
  let c := c.tail
  if !(peek c = 116 ∨ peek c = 84) then .error .InvalidScheme else
  let c := c.tail
  if !(peek c = 112 ∨ peek c = 80) then .error .InvalidScheme else
  let c := c.tail
  let secure : Bool := peek c = 115 ∨ peek c = 83
  let c := if secure then c.tail else c
  if peek c ≠ 58 then .error .InvalidScheme else
  let c := c.tail
  if peek c ≠ 47 then .error .InvalidScheme else
  let c := c.tail
  if peek c ≠ 47 then .error .InvalidScheme else
  .ok (secure, c.tail)

/-- The port loop of `parse`: digits up to `/`, `?`, `#` or NUL. -/
def scan_port : Str → Except ParseError (Str × Str)
  | [] => .ok ([], [])
  | c :: cs =>
    if port_stop c then .ok ([], c :: cs)
    else if !(48 ≤ c ∧ c ≤ 57) then .error .InvalidPort
    else
      match scan_port cs with
      | .error e => .error e
      | .ok (os, rest) => .ok (c :: os, rest)

/-- The port section of `parse` (`// found port`). -/
def parse_port (secure : Bool) (c : Str) : Except ParseError (Nat × Str) :=
  if peek c ≠ 58 then .ok (if secure then 443 else 80, c)
  else
    match scan_port c.tail with
    | .error e => .error e
    | .ok (os, rest) =>
      match lexical_cast_ushort os with
      | none => .error .BadLexicalCast
      | some port => .ok (port, rest)

mutual
/-- The `while (true)` loop over `query.c_str()`, inside the key loop: `os`
holds the characters of the key read so far. -/
def query_key (u : uri) (os : Str) : Str → Except ParseError uri
  | [] => .error .InvalidQuery
  | c :: q =>
    if c ≠ 61 ∧ c ≠ 0 then query_key u (os ++ [c]) q
    else if c = 0 then .error .InvalidQuery
    else if (uri.decode os).isEmpty then .error .InvalidQueryKeyEmpty
    else query_val u (uri.decode os) [] q
/-- The same loop inside the value loop, `qkey` being decoded already. -/
def query_val (u : uri) (qkey os : Str) : Str → Except ParseError uri
  | [] => .ok (u.append_query qkey (uri.decode os))
  | c :: q =>
    if c ≠ 38 ∧ c ≠ 0 then query_val u qkey (os ++ [c]) q
    else if c = 38 then query_key (u.append_query qkey (uri.decode os)) [] q
    else .ok (u.append_query qkey (uri.decode os))
end

/-- The path, query and fragment sections of `parse` (`// found path`,
`// found querystring`, `// found fragment`) from the pointer `c` behind the
port: the strings `path`, `query` and `fragment`. -/
def parse_rest (c : Str) : Str × Str × Str :=
  let path := if peek c = 47 then 47 :: (scan path_stop c.tail).1 else [47]
  let c := if peek c = 47 then (scan path_stop c.tail).2 else c
  let query := if peek c = 63 then (scan query_stop c.tail).1 else []
  let c := if peek c = 63 then (scan query_stop c.tail).2 else c
  let fragment := if peek c = 35 then (scan fragment_stop c.tail).1 else []
  (path, query, fragment)

/-- The part of `parse` before the query loop: the value constructed by
`uri u(secure, host, port, path, fragment)` and the string `query`. -/
def parse_sections (s : Str) : Except ParseError (uri × Str) :=
  if s.length < 9 then .error .TooShort else
  match parse_scheme s with
  | .error e => .error e
  | .ok (secure, c) =>
    let host := (scan host_stop c).1
    let c := (scan host_stop c).2
    if host.isEmpty then .error .HostNotFound else
    match parse_port secure c with
    | .error e => .error e
    | .ok (port, c) =>
      .ok (⟨secure, host, port, (parse_rest c).1, (parse_rest c).2.2, []⟩, (parse_rest c).2.1)

/-- `uri::parse`. -/
def uri.parse (s : Str) : Except ParseError uri :=
  match parse_sections s with
  | .error e => .error e
  | .ok (u, query) => if !query.isEmpty then query_key u [] query else .ok u

/-! ## Auxiliary notions used in the statements -/

mutual
/-- The arguments of the successive `u.append_query(qkey, qval)` calls of the
query loop, in the order the loop makes them; the control flow is that of
`query_key`. -/
def calls_key (os : Str) : Str → Except ParseError (List (Str × Str))
  | [] => .error .InvalidQuery
  | c :: q =>
    if c ≠ 61 ∧ c ≠ 0 then calls_key (os ++ [c]) q
    else if c = 0 then .error .InvalidQuery
    else if (uri.decode os).isEmpty then .error .InvalidQueryKeyEmpty
    else calls_val (uri.decode os) [] q
/-- The calls of the query loop from inside the value loop; the control flow is
that of `query_val`. -/
def calls_val (qkey os : Str) : Str → Except ParseError (List (Str × Str))
  | [] => .ok [(qkey, uri.decode os)]
  | c :: q =>
    if c ≠ 38 ∧ c ≠ 0 then calls_val qkey (os ++ [c]) q
    else if c = 38 then
      match calls_key [] q with
      | .error e => .error e
      | .ok ps => .ok ((qkey, uri.decode os) :: ps)
    else .ok [(qkey, uri.decode os)]
end

/-- The `append_query` calls `parse` makes for the string `query`. -/
def parse_calls (query : Str) : Except ParseError (List (Str × Str)) :=
  if !query.isEmpty then calls_key [] query else .ok []

/-- A sequence of `append_query` calls applied to `u` in order. -/
def append_all (u : uri) (ps : List (Str × Str)) : uri :=
  ps.foldl (fun w p => w.append_query p.1 p.2) u

/-- The key of the first pair is not greater than the key of the second. -/
def key_le (a b : Str × Str) : Prop := string_lt b.1 a.1 = false

/-- The first string is not greater than the second. -/
def string_le (a b : Str) : Prop := string_lt b a = false

/-- The value `parse` returns for the URI of the test suite,
`http://www.example.org/path/path1?qkey=qval#frag`. -/
def test_uri : uri :=
  ⟨false, bytes "www.example.org", 80, bytes "/path/path1", bytes "frag",
    [(bytes "qkey", bytes "qval")]⟩

/-- The seven characters `http://`, letters in either case. -/
def is_http (p : Str) : Prop :=
  ∃ a b c d, p = [a, b, c, d, 58, 47, 47]
    ∧ (a = 104 ∨ a = 72) ∧ (b = 116 ∨ b = 84) ∧ (c = 116 ∨ c = 84) ∧ (d = 112 ∨ d = 80)

/-- The eight characters `https://`, letters in either case. -/
def is_https (p : Str) : Prop :=
  ∃ a b c d e, p = [a, b, c, d, e, 58, 47, 47]
    ∧ (a = 104 ∨ a = 72) ∧ (b = 116 ∨ b = 84) ∧ (c = 116 ∨ c = 84) ∧ (d = 112 ∨ d = 80)
    ∧ (e = 115 ∨ e = 83)

/-- The RFC 3986 unreserved characters: the ASCII letters, the digits and `-_.~`. -/
def unreserved_rfc3986 : Str :=
  bytes "ABCDEFGHIJKLMNOPQRSTUVWXYZabcdefghijklmnopqrstuvwxyz0123456789-_.~"

/-- The RFC 2396 unreserved characters: those of RFC 3986 and `!`, the
apostrophe, `(` and `)`. -/
def unreserved_rfc2396 : Str := unreserved_rfc3986 ++ [33, 39, 40, 41]

/-- The sixteen lowercase hexadecimal digits in order. -/
def lower_hex : Str := bytes "0123456789abcdef"

/-- The encoding of one byte as the encoding format describes it: the byte
itself when it is in `unreserved`, `space` for a space, and otherwise `%` and
the two lowercase hexadecimal digits of its value. -/
def encoded_byte (unreserved space : Str) (c : Nat) : Str :=
  if c ∈ unreserved then [c]
  else if c = 32 then space
  else [37, lower_hex.getD (c / 16) 0, lower_hex.getD (c % 16) 0]

/-- The number a string of decimal digits denotes. -/
def decimal_value (ds : Str) : Nat := ds.foldl (fun acc c => 10 * acc + (c - 48)) 0

/-- The raw query `k1=v1&...&kn=vn` of a list of keys and values. -/
def raw_query (pairs : List (Str × Str)) : Str :=
  join (pairs.map fun kv => kv.1 ++ [61] ++ kv.2) [38]

/-! # Theorems -/

/-! ## Codec -/

set_option maxRecDepth 100000 in
theorem hexExtract_hex2 : ∀ c < 256, to_char (hexExtract (hex2 c)) = c := by decide

theorem RFC3986_unreserved_ne {c : Nat} (h : RFC3986.match_ c = false) : c ≠ 43 ∧ c ≠ 37 := by
  simp only [RFC3986.match_, ite_eq_left_iff, Bool.true_eq_false, imp_false, not_not] at h
  omega

theorem RFC2396_unreserved_ne {c : Nat} (h : RFC2396.match_ c = false) : c ≠ 43 ∧ c ≠ 37 := by
  simp only [RFC2396.match_, ite_eq_left_iff, Bool.true_eq_false, imp_false, not_not] at h
  omega

theorem decode_cons_plain (U : SpaceClass) (c : Nat) (cs : Str) (h1 : c ≠ 43) (h2 : c ≠ 37) :
    encoder.decode U (c :: cs) = c :: encoder.decode U cs := by
  simp [encoder.decode, encoder.decode_loop, h1, h2]

theorem decode_escape (U : SpaceClass) (a b : Nat) (cs : Str) :
    encoder.decode U (37 :: a :: b :: cs) = to_char (hexExtract [a, b]) :: encoder.decode U cs := by
  simp [encoder.decode, encoder.decode_loop]

theorem decode_plus (U : SpaceClass) (cs : Str) :
    encoder.decode U (43 :: cs) = U.plus_decoded :: encoder.decode U cs := by
  simp [encoder.decode, encoder.decode_loop]

theorem decode_encode_of (tmatch : Nat → Bool) (U : SpaceClass)
    (hU : U = PLUS ∨ U = NO_PLUS)
    (hT : ∀ c, tmatch c = false → c ≠ 43 ∧ c ≠ 37)
    (s : Str) (hs : isBytes s) :
    encoder.decode U (encoder.encode tmatch U s) = s := by
  induction s with
  | nil => rfl
  | cons c cs ih =>
    have hc : c < 256 := hs c (List.mem_cons_self _ _)
    have hcs : isBytes cs := fun x hx => hs x (List.mem_cons_of_mem _ hx)
    have ih := ih hcs
    unfold encoder.encode
    by_cases hm : tmatch c = false
    · obtain ⟨h1, h2⟩ := hT c hm
      simp only [hm, Bool.not_false, if_true, List.singleton_append]
      rw [decode_cons_plain U c _ h1 h2, ih]
    · have hm' : tmatch c = true := by simpa using hm
      simp only [hm', Bool.not_true, Bool.false_eq_true, if_false]
      by_cases h32 : c = 32
      · subst h32
        rcases hU with rfl | rfl
        · have e : PLUS.space_encoded = [43] := rfl
          simp only [if_true, e, List.singleton_append]
          rw [decode_plus, ih]
          rfl
        · have e : NO_PLUS.space_encoded = [37, 50, 48] := rfl
          simp only [if_true, e, List.cons_append, List.nil_append]
          rw [decode_escape, ih]
          rfl
      · simp only [h32, if_false, hex2, List.cons_append, List.nil_append]
        rw [decode_escape, ih]
        have := hexExtract_hex2 c hc
        simp only [hex2] at this
        rw [this]

/-- C1: on every string of bytes, decoding the encoding gives the string back,
for each of the four pairings `decode`/`encode`, `decode2`/`encode2`,
`decode`/`encodeURIComponent` and `decode2`/`encodeURIComponent2`. -/
theorem C1_decode_encode_roundtrip (s : Str) (hs : isBytes s) :
    uri.decode (uri.encode s) = s
    ∧ uri.decode2 (uri.encode2 s) = s
    ∧ uri.decode (uri.encodeURIComponent s) = s
    ∧ uri.decode2 (uri.encodeURIComponent2 s) = s :=
  ⟨decode_encode_of _ _ (Or.inr rfl) (fun _ h => RFC3986_unreserved_ne h) s hs,
   decode_encode_of _ _ (Or.inl rfl) (fun _ h => RFC3986_unreserved_ne h) s hs,
   decode_encode_of _ _ (Or.inr rfl) (fun _ h => RFC2396_unreserved_ne h) s hs,
   decode_encode_of _ _ (Or.inl rfl) (fun _ h => RFC2396_unreserved_ne h) s hs⟩

/-- C1 at the test string followed by the bytes 0x00, 0x2b, 0x25, 0x80 and 0xff. -/
theorem C1_decode_encode_roundtrip_witness :
    isBytes (bytes "abcABC123-_.~!()&= " ++ [0, 43, 37, 128, 255])
    ∧ (uri.decode (uri.encode (bytes "abcABC123-_.~!()&= " ++ [0, 43, 37, 128, 255]))
        = bytes "abcABC123-_.~!()&= " ++ [0, 43, 37, 128, 255]
      ∧ uri.decode2 (uri.encode2 (bytes "abcABC123-_.~!()&= " ++ [0, 43, 37, 128, 255]))
        = bytes "abcABC123-_.~!()&= " ++ [0, 43, 37, 128, 255]
      ∧ uri.decode (uri.encodeURIComponent (bytes "abcABC123-_.~!()&= " ++ [0, 43, 37, 128, 255]))
        = bytes "abcABC123-_.~!()&= " ++ [0, 43, 37, 128, 255]
      ∧ uri.decode2 (uri.encodeURIComponent2 (bytes "abcABC123-_.~!()&= " ++ [0, 43, 37, 128, 255]))
        = bytes "abcABC123-_.~!()&= " ++ [0, 43, 37, 128, 255]) :=
  ⟨by decide, C1_decode_encode_roundtrip _ (by decide)⟩

/-! ## Scanning loops -/

theorem scan_append_stop (stop : Nat → Bool) (a : Str) (d : Nat) (r : Str)
    (ha : ∀ c ∈ a, stop c = false) (hd : stop d = true) :
    scan stop (a ++ d :: r) = (a, d :: r) := by
  induction a with
  | nil => simp [scan, hd]
  | cons x xs ih =>
    have hx : stop x = false := ha x (List.mem_cons_self _ _)
    have ih := ih (fun c hc => ha c (List.mem_cons_of_mem _ hc))
    simp [scan, hx, ih]

theorem scan_all (stop : Nat → Bool) (a : Str) (ha : ∀ c ∈ a, stop c = false) :
    scan stop a = (a, []) := by
  induction a with
  | nil => simp [scan]
  | cons x xs ih =>
    have hx : stop x = false := ha x (List.mem_cons_self _ _)
    have ih := ih (fun c hc => ha c (List.mem_cons_of_mem _ hc))
    simp [scan, hx, ih]

/-! ## Query loop -/

theorem query_key_append (u : uri) (os k q : Str) (hk : ∀ c ∈ k, c ≠ 61 ∧ c ≠ 0) :
    query_key u os (k ++ 61 :: q)
      = if (uri.decode (os ++ k)).isEmpty then .error .InvalidQueryKeyEmpty
        else query_val u (uri.decode (os ++ k)) [] q := by
  induction k generalizing os with
  | nil => simp [query_key]
  | cons x xs ih =>
    have hx := hk x (List.mem_cons_self _ _)
    have ih := ih (os ++ [x]) (fun c hc => hk c (List.mem_cons_of_mem _ hc))
    have e : os ++ x :: xs = os ++ [x] ++ xs := by simp
    rw [List.cons_append, query_key, if_pos ⟨hx.1, hx.2⟩, ih, e]

theorem query_val_append_amp (u : uri) (qkey os v q : Str) (hv : ∀ c ∈ v, c ≠ 38 ∧ c ≠ 0) :
    query_val u qkey os (v ++ 38 :: q)
      = query_key (u.append_query qkey (uri.decode (os ++ v))) [] q := by
  induction v generalizing os with
  | nil => simp [query_val]
  | cons x xs ih =>
    have hx := hv x (List.mem_cons_self _ _)
    have ih := ih (os ++ [x]) (fun c hc => hv c (List.mem_cons_of_mem _ hc))
    have e : os ++ x :: xs = os ++ [x] ++ xs := by simp
    rw [List.cons_append, query_val, if_pos ⟨hx.1, hx.2⟩, ih, e]

theorem query_val_all (u : uri) (qkey os v : Str) (hv : ∀ c ∈ v, c ≠ 38 ∧ c ≠ 0) :
    query_val u qkey os v = .ok (u.append_query qkey (uri.decode (os ++ v))) := by
  induction v generalizing os with
  | nil => simp [query_val]
  | cons x xs ih =>
    have hx := hv x (List.mem_cons_self _ _)
    have ih := ih (os ++ [x]) (fun c hc => hv c (List.mem_cons_of_mem _ hc))
    have e : os ++ x :: xs = os ++ [x] ++ xs := by simp
    rw [query_val, if_pos ⟨hx.1, hx.2⟩, ih, e]

/-! ## Codec on unreserved characters -/

theorem decode_plain (U : SpaceClass) (s : Str) (hs : ∀ c ∈ s, c ≠ 43 ∧ c ≠ 37) :
    encoder.decode U s = s := by
  induction s with
  | nil => rfl
  | cons x xs ih =>
    have hx := hs x (List.mem_cons_self _ _)
    rw [decode_cons_plain U x xs hx.1 hx.2, ih (fun c hc => hs c (List.mem_cons_of_mem _ hc))]

theorem encode_unreserved (tmatch : Nat → Bool) (U : SpaceClass) (s : Str)
    (hs : ∀ c ∈ s, tmatch c = false) : encoder.encode tmatch U s = s := by
  induction s with
  | nil => rfl
  | cons x xs ih =>
    have hx := hs x (List.mem_cons_self _ _)
    simp [encoder.encode, hx, ih (fun c hc => hs c (List.mem_cons_of_mem _ hc))]

theorem RFC3986_unreserved_ne_delims {c : Nat} (h : RFC3986.match_ c = false) :
    c ≠ 61 ∧ c ≠ 38 ∧ c ≠ 35 ∧ c ≠ 0 ∧ c ≠ 63 ∧ c ≠ 47 ∧ c ≠ 58 := by
  simp only [RFC3986.match_, ite_eq_left_iff, Bool.true_eq_false, imp_false, not_not] at h
  omega

theorem parse_scheme_http (rest : Str) :
    parse_scheme (bytes "http://" ++ rest) = .ok (false, rest) := by
  simp [parse_scheme, peek, bytes]

theorem parse_scheme_https (rest : Str) :
    parse_scheme (bytes "https://" ++ rest) = .ok (true, rest) := by
  simp [parse_scheme, peek, bytes]

/-! ## Canonical inputs -/

/-- C2: for a non-empty host `h` without `:`, `/`, `?`, `#`, NUL, a path `p`
beginning with `/` without `?`, `#`, NUL, a non-empty key `k` and a value `v` of
RFC 3986 unreserved characters and a non-empty fragment `f` without NUL,
`parse("http://" + h + p + "?" + k + "=" + v + "#" + f)` succeeds with scheme
`http`, `secure() = false`, host `h`, port 80, path `p`, the single query pair
`(k, v)` and fragment `f`, and `str()` gives the input back. -/
theorem C2_canonical_input_roundtrip (h p k v f : Str)
    (hh : h ≠ []) (hh' : ∀ c ∈ h, c ≠ 58 ∧ c ≠ 47 ∧ c ≠ 63 ∧ c ≠ 35 ∧ c ≠ 0)
    (hp : p.head? = some 47) (hp' : ∀ c ∈ p, c ≠ 63 ∧ c ≠ 35 ∧ c ≠ 0)
    (hk : k ≠ []) (hk' : ∀ c ∈ k, RFC3986.match_ c = false)
    (hv : ∀ c ∈ v, RFC3986.match_ c = false)
    (hf : f ≠ []) (hf' : ∀ c ∈ f, c ≠ 0) :
    ∃ u, uri.parse (bytes "http://" ++ h ++ p ++ [63] ++ k ++ [61] ++ v ++ [35] ++ f) = .ok u
      ∧ u.scheme = bytes "http" ∧ u.secure = false ∧ u.host = h ∧ u.port = 80
      ∧ u.path = p ∧ u.query = [(k, v)] ∧ u.fragment = f
      ∧ u.str = bytes "http://" ++ h ++ p ++ [63] ++ k ++ [61] ++ v ++ [35] ++ f := by
  obtain ⟨p', rfl⟩ : ∃ p', p = 47 :: p' := by
    cases p with
    | nil => simp at hp
    | cons x xs => simp at hp; exact ⟨xs, by rw [hp]⟩
  have hp'' : ∀ c ∈ p', path_stop c = false := fun c hc => by
    have := hp' c (List.mem_cons_of_mem _ hc); simp [path_stop, this]
  have hhs : ∀ c ∈ h, host_stop c = false := fun c hc => by
    have := hh' c hc; simp [host_stop, this]
  have hkd : ∀ c ∈ k, c ≠ 61 ∧ c ≠ 0 := fun c hc =>
    ⟨(RFC3986_unreserved_ne_delims (hk' c hc)).1, (RFC3986_unreserved_ne_delims (hk' c hc)).2.2.2.1⟩
  have hvd : ∀ c ∈ v, c ≠ 38 ∧ c ≠ 0 := fun c hc =>
    ⟨(RFC3986_unreserved_ne_delims (hv c hc)).2.1, (RFC3986_unreserved_ne_delims (hv c hc)).2.2.2.1⟩
  have hq : ∀ c ∈ k ++ 61 :: v, query_stop c = false := fun c hc => by
    have : c ≠ 35 ∧ c ≠ 0 := by
      rcases List.mem_append.1 hc with hc | hc
      · exact ⟨(RFC3986_unreserved_ne_delims (hk' c hc)).2.2.1, (RFC3986_unreserved_ne_delims (hk' c hc)).2.2.2.1⟩
      · rcases List.mem_cons.1 hc with rfl | hc
        · decide
        · exact ⟨(RFC3986_unreserved_ne_delims (hv c hc)).2.2.1, (RFC3986_unreserved_ne_delims (hv c hc)).2.2.2.1⟩
    simp [query_stop, this]
  have hfs : ∀ c ∈ f, fragment_stop c = false := fun c hc => by
    have := hf' c hc; simp [fragment_stop, this]
  have hkdec : uri.decode k = k :=
    decode_plain _ k (fun c hc => RFC3986_unreserved_ne (hk' c hc))
  have hvdec : uri.decode v = v :=
    decode_plain _ v (fun c hc => RFC3986_unreserved_ne (hv c hc))
  have hkenc : uri.encode k = k := encode_unreserved _ _ k hk'
  have hvenc : uri.encode v = v := encode_unreserved _ _ v hv
  have hin : bytes "http://" ++ h ++ (47 :: p') ++ [63] ++ k ++ [61] ++ v ++ [35] ++ f
      = bytes "http://" ++ (h ++ 47 :: (p' ++ 63 :: ((k ++ 61 :: v) ++ 35 :: f))) := by
    simp
  have hlen : ¬ (bytes "http://" ++ (h ++ 47 :: (p' ++ 63 :: ((k ++ 61 :: v) ++ 35 :: f)))).length < 9 := by
    have : 0 < h.length := List.length_pos.2 hh
    simp [bytes]
    omega
  have hparse : uri.parse (bytes "http://" ++ (h ++ 47 :: (p' ++ 63 :: ((k ++ 61 :: v) ++ 35 :: f))))
      = .ok ⟨false, h, 80, 47 :: p', f, [(k, v)]⟩ := by
    unfold uri.parse parse_sections
    rw [if_neg hlen, parse_scheme_http]
    simp only [scan_append_stop host_stop h 47 _ hhs (by decide)]
    have hne : h.isEmpty = false := by cases h <;> simp at hh ⊢
    simp only [hne, Bool.false_eq_true, if_false, parse_port, parse_rest, peek, List.headD_cons,
      ne_eq, Nat.reduceEqDiff, not_true_eq_false, not_false_eq_true, if_true, List.tail_cons,
      scan_append_stop path_stop p' 63 _ hp'' (by decide),
      scan_append_stop query_stop (k ++ 61 :: v) 35 _ hq (by decide),
      scan_all fragment_stop f hfs]
    have hqne : (k ++ 61 :: v).isEmpty = false := by cases k <;> simp
    simp only [hqne, Bool.not_false, if_true]
    have hkne : (uri.decode ([] ++ k)).isEmpty = false := by
      rw [List.nil_append, hkdec]; cases k <;> simp at hk ⊢
    rw [query_key_append _ _ _ _ hkd, hkne, if_neg (by simp), query_val_all _ _ _ _ hvd]
    simp [hkdec, hvdec, uri.append_query, multimap_insert]
  refine ⟨⟨false, h, 80, 47 :: p', f, [(k, v)]⟩, ?_, ?_⟩
  · rw [hin, hparse]
  · refine ⟨rfl, rfl, rfl, rfl, rfl, rfl, rfl, ?_⟩
    have hfne : f.isEmpty = false := by cases f <;> simp at hf ⊢
    simp [uri.str, uri.query_string, sort, join, hkenc, hvenc, hfne]

/-- C2 at `http://www.example.org/path/path1?qkey=qval#frag`. -/
theorem C2_canonical_input_roundtrip_witness :
    ∃ u, uri.parse (bytes "http://www.example.org/path/path1?qkey=qval#frag") = .ok u
      ∧ u.scheme = bytes "http" ∧ u.secure = false ∧ u.host = bytes "www.example.org"
      ∧ u.port = 80 ∧ u.path = bytes "/path/path1"
      ∧ u.query = [(bytes "qkey", bytes "qval")] ∧ u.fragment = bytes "frag"
      ∧ u.str = bytes "http://www.example.org/path/path1?qkey=qval#frag" :=
  C2_canonical_input_roundtrip (bytes "www.example.org") (bytes "/path/path1") (bytes "qkey")
    (bytes "qval") (bytes "frag") (by decide) (by decide) (by decide) (by decide) (by decide)
    (by decide) (by decide) (by decide) (by decide)

/-! ## The order on strings -/

theorem string_lt_irrefl (a : Str) : string_lt a a = false := by
  induction a with
  | nil => rfl
  | cons x xs ih => simp [string_lt, ih]

theorem string_le_total (a b : Str) : string_lt b a = false ∨ string_lt a b = false := by
  induction a generalizing b with
  | nil => cases b <;> simp [string_lt]
  | cons x xs ih =>
    cases b with
    | nil => simp [string_lt]
    | cons y ys =>
      simp only [string_lt]
      rcases Nat.lt_trichotomy x y with h | h | h
      · left; simp [h, Nat.lt_asymm h]
      · subst h; simpa using ih ys
      · right; simp [h, Nat.lt_asymm h]

theorem string_le_antisymm (a b : Str) (h1 : string_lt b a = false) (h2 : string_lt a b = false) :
    a = b := by
  induction a generalizing b with
  | nil => cases b <;> simp [string_lt] at h1 h2 ⊢
  | cons x xs ih =>
    cases b with
    | nil => simp [string_lt] at h1 h2
    | cons y ys =>
      simp only [string_lt] at h1 h2
      rcases Nat.lt_trichotomy x y with h | h | h
      · simp [h] at h2
      · subst h
        simp only [Nat.lt_irrefl, if_false] at h1 h2
        rw [ih ys h1 h2]
      · simp [h] at h1

theorem string_lt_cons_false (a b : Nat) (as bs : Str) :
    string_lt (b :: bs) (a :: as) = false ↔ a < b ∨ (a = b ∧ string_lt bs as = false) := by
  simp only [string_lt]
  rcases Nat.lt_trichotomy a b with h | h | h
  · simp [h, Nat.lt_asymm h]
  · subst h; simp
  · simp [h, Nat.lt_asymm h, Nat.ne_of_gt h]

theorem string_le_trans (a b c : Str) (h1 : string_lt b a = false) (h2 : string_lt c b = false) :
    string_lt c a = false := by
  induction a generalizing b c with
  | nil => cases c <;> simp [string_lt]
  | cons x xs ih =>
    cases b with
    | nil => simp [string_lt] at h1
    | cons y ys =>
      cases c with
      | nil => simp [string_lt] at h2
      | cons z zs =>
        rw [string_lt_cons_false] at h1 h2 ⊢
        rcases h1 with h1 | ⟨rfl, h1⟩
        · rcases h2 with h2 | ⟨rfl, _⟩
          · exact Or.inl (Nat.lt_trans h1 h2)
          · exact Or.inl h1
        · rcases h2 with h2 | ⟨rfl, h2⟩
          · exact Or.inl h2
          · exact Or.inr ⟨rfl, ih ys zs h1 h2⟩

theorem sort_sorted (v : List Str) : (sort v).Sorted (fun a b => string_lt b a = false) := by
  haveI : IsTotal Str (fun a b => string_lt b a = false) := ⟨string_le_total⟩
  haveI : IsTrans Str (fun a b => string_lt b a = false) := ⟨string_le_trans⟩
  exact List.sorted_insertionSort _ v

theorem sort_perm (v : List Str) : (sort v).Perm v :=
  List.perm_insertionSort _ v

theorem sort_eq_of_perm {v w : List Str} (h : v.Perm w) : sort v = sort w := by
  haveI : IsAntisymm Str (fun a b => string_lt b a = false) := ⟨string_le_antisymm⟩
  exact List.eq_of_perm_of_sorted ((sort_perm v).trans (h.trans (sort_perm w).symm))
    (sort_sorted v) (sort_sorted w)

/-! ## The multimap -/

theorem multimap_insert_perm (kv : Str × Str) (l : List (Str × Str)) :
    (multimap_insert kv l).Perm (kv :: l) := by
  induction l with
  | nil => simp [multimap_insert]
  | cons x xs ih =>
    simp only [multimap_insert]
    split
    · exact List.Perm.refl _
    · exact (List.Perm.cons x ih).trans (List.Perm.swap kv x xs)

theorem append_all_query_perm (u : uri) (ps : List (Str × Str)) :
    (append_all u ps).query_.Perm (u.query_ ++ ps) := by
  induction ps generalizing u with
  | nil => simp [append_all]
  | cons p ps ih =>
    have h := ih (u.append_query p.1 p.2)
    have e : append_all u (p :: ps) = append_all (u.append_query p.1 p.2) ps := rfl
    rw [e]
    refine h.trans ?_
    have : (u.append_query p.1 p.2).query_.Perm (p :: u.query_) := multimap_insert_perm _ _
    refine (List.Perm.append_right ps this).trans ?_
    simpa using (@List.perm_middle _ p u.query_ ps).symm

theorem query_string_eq_of_perm {u w : uri} (h : u.query_.Perm w.query_) :
    u.query_string = w.query_string := by
  unfold uri.query_string
  rw [sort_eq_of_perm (h.map _)]

/-- C3: `query_string()` is the `&`-join of the strings
`encode(key) + "=" + encode(value)` of the stored pairs arranged in ascending
order of `operator<`; consequently appending the same pairs in another order
gives the same `query_string()`. -/
theorem C3_query_string_sorted (u : uri) (ps ps' : List (Str × Str)) (h : ps.Perm ps') :
    (∃ v : List Str,
        v.Perm (u.query.map fun param => uri.encode param.1 ++ bytes "=" ++ uri.encode param.2)
        ∧ v.Sorted string_le
        ∧ u.query_string = join v (bytes "&"))
    ∧ (append_all u ps).query_string = (append_all u ps').query_string := by
  refine ⟨⟨sort (u.query_.map fun param : Str × Str =>
      uri.encode param.1 ++ [61] ++ uri.encode param.2), sort_perm _, sort_sorted _, rfl⟩, ?_⟩
  apply query_string_eq_of_perm
  exact (append_all_query_perm u ps).trans
    ((List.Perm.append_left _ h).trans (append_all_query_perm u ps').symm)

/-- C3 at the parsed test URI, with the two orders of appending
`("new_key", "va l")` and `("a", "b")`, and the value the test suite expects. -/
theorem C3_query_string_sorted_witness :
    ((∃ v : List Str,
        v.Perm (test_uri.query.map fun param => uri.encode param.1 ++ bytes "=" ++ uri.encode param.2)
        ∧ v.Sorted string_le
        ∧ test_uri.query_string = join v (bytes "&"))
      ∧ (append_all test_uri [(bytes "new_key", bytes "va l"), (bytes "a", bytes "b")]).query_string
        = (append_all test_uri [(bytes "a", bytes "b"), (bytes "new_key", bytes "va l")]).query_string)
    ∧ (test_uri.append_query (bytes "new_key") (bytes "va l")).query_string
        = bytes "new_key=va%20l&qkey=qval" :=
  ⟨C3_query_string_sorted _ _ _ (List.Perm.swap _ _ _), by decide⟩


/-! ## The query loop as a sequence of `append_query` calls -/

theorem query_loop_calls (q : Str) :
    (∀ (u : uri) (os : Str), query_key u os q
        = match calls_key os q with
          | .error e => .error e
          | .ok ps => .ok (append_all u ps))
    ∧ (∀ (u : uri) (qkey os : Str), query_val u qkey os q
        = match calls_val qkey os q with
          | .error e => .error e
          | .ok ps => .ok (append_all u ps)) := by
  induction q with
  | nil =>
    constructor
    · intro u os; simp [query_key, calls_key]
    · intro u qkey os; simp [query_val, calls_val, append_all]
  | cons c q ih =>
    obtain ⟨ihk, ihv⟩ := ih
    constructor
    · intro u os
      rw [query_key, calls_key]
      split
      · exact ihk u _
      · split
        · rfl
        · split
          · rfl
          · exact ihv u _ _
    · intro u qkey os
      rw [query_val, calls_val]
      split
      · exact ihv u _ _
      · split
        · rw [ihk]
          cases calls_key [] q <;> rfl
        · rfl

theorem parse_eq_calls (s : Str) :
    uri.parse s
      = match parse_sections s with
        | .error e => .error e
        | .ok (u0, query) =>
          match parse_calls query with
          | .error e => .error e
          | .ok ps => .ok (append_all u0 ps) := by
  unfold uri.parse parse_calls
  cases parse_sections s with
  | error e => rfl
  | ok r =>
    obtain ⟨u0, query⟩ := r
    simp only
    split
    · exact (query_loop_calls query).1 u0 []
    · rfl

theorem parse_sections_query_nil {s : Str} {u0 : uri} {query : Str}
    (h : parse_sections s = .ok (u0, query)) : u0.query_ = [] := by
  unfold parse_sections at h
  split at h
  · cases h
  · split at h
    · cases h
    · simp only at h
      split at h
      · cases h
      · split at h
        · cases h
        · simp only [Except.ok.injEq, Prod.mk.injEq] at h
          rw [← h.1]

theorem parse_ok_calls {s : Str} {u : uri} (h : uri.parse s = .ok u) :
    ∃ u0 query ps, parse_sections s = .ok (u0, query) ∧ parse_calls query = .ok ps
      ∧ u0.query_ = [] ∧ u = append_all u0 ps := by
  rw [parse_eq_calls] at h
  cases hs : parse_sections s with
  | error e => rw [hs] at h; cases h
  | ok r =>
    obtain ⟨u0, query⟩ := r
    rw [hs] at h
    simp only at h
    cases hc : parse_calls query with
    | error e => rw [hc] at h; cases h
    | ok ps =>
      rw [hc] at h
      simp only [Except.ok.injEq] at h
      exact ⟨u0, query, ps, rfl, hc, parse_sections_query_nil hs, h.symm⟩

/-! ## Iteration order of the multimap -/

theorem multimap_insert_sorted (kv : Str × Str) (l : List (Str × Str))
    (hl : l.Pairwise key_le) : (multimap_insert kv l).Pairwise key_le := by
  induction l with
  | nil => simp [multimap_insert]
  | cons x xs ih =>
    have hx := (List.pairwise_cons.1 hl).1
    have hxs := (List.pairwise_cons.1 hl).2
    simp only [multimap_insert]
    split
    · rename_i hlt
      refine List.pairwise_cons.2 ⟨?_, hl⟩
      intro y hy
      rcases List.mem_cons.1 hy with rfl | hy
      · rcases string_le_total kv.1 y.1 with h | h
        · exact h
        · rw [h] at hlt; cases hlt
      · have h1 : string_lt x.1 kv.1 = false := by
          rcases string_le_total kv.1 x.1 with h | h
          · exact h
          · rw [h] at hlt; cases hlt
        exact string_le_trans kv.1 x.1 y.1 h1 (hx y hy)
    · rename_i hlt
      refine List.pairwise_cons.2 ⟨?_, ih hxs⟩
      intro y hy
      rcases List.mem_cons.1 ((multimap_insert_perm kv xs).mem_iff.1 hy) with rfl | hy
      · simpa [key_le] using hlt
      · exact hx y hy

theorem multimap_insert_filter (kv : Str × Str) (l : List (Str × Str))
    (hl : l.Pairwise key_le) (key : Str) :
    (multimap_insert kv l).filter (fun p => decide (p.1 = key))
      = l.filter (fun p => decide (p.1 = key)) ++ [kv].filter (fun p => decide (p.1 = key)) := by
  induction l with
  | nil => simp [multimap_insert]
  | cons x xs ih =>
    have hx := (List.pairwise_cons.1 hl).1
    have hxs := (List.pairwise_cons.1 hl).2
    simp only [multimap_insert]
    split
    · rename_i hlt
      by_cases hk : kv.1 = key
      · have hnone : (x :: xs).filter (fun p => decide (p.1 = key)) = [] := by
          rw [List.filter_eq_nil_iff]
          intro y hy
          simp only [decide_eq_true_eq]
          intro hy1
          rw [← hk] at hy1
          rcases List.mem_cons.1 hy with rfl | hy'
          · rw [hy1, string_lt_irrefl] at hlt; cases hlt
          · have := hx y hy'
            simp only [key_le, hy1] at this
            rw [this] at hlt; cases hlt
        rw [List.filter_cons, hnone]
        simp [hk]
      · simp [List.filter_cons, hk]
    · rw [List.filter_cons, ih hxs]
      by_cases hk : x.1 = key <;> simp [List.filter_cons, hk]

theorem append_all_sorted (u : uri) (ps : List (Str × Str)) (hu : u.query_.Pairwise key_le) :
    (append_all u ps).query_.Pairwise key_le := by
  induction ps generalizing u with
  | nil => exact hu
  | cons p ps ih => exact ih (u.append_query p.1 p.2) (multimap_insert_sorted _ _ hu)

theorem append_all_filter (u : uri) (ps : List (Str × Str)) (hu : u.query_.Pairwise key_le)
    (key : Str) :
    (append_all u ps).query_.filter (fun p => decide (p.1 = key))
      = u.query_.filter (fun p => decide (p.1 = key)) ++ ps.filter (fun p => decide (p.1 = key)) := by
  induction ps generalizing u with
  | nil => simp [append_all]
  | cons p ps ih =>
    have e : append_all u (p :: ps) = append_all (u.append_query p.1 p.2) ps := rfl
    rw [e, ih _ (multimap_insert_sorted _ _ hu)]
    have : (u.append_query p.1 p.2).query_ = multimap_insert p u.query_ := rfl
    rw [this, multimap_insert_filter _ _ hu, List.append_assoc, ← List.filter_append]
    rfl

theorem append_all_append (u : uri) (ps qs : List (Str × Str)) :
    append_all (append_all u ps) qs = append_all u (ps ++ qs) := by
  simp [append_all, List.foldl_append]

/-- C4 as stated fails: on the parsed test URI `append_query("new_key", "va l")`
puts the new pair before the pair `(qkey, qval)` inserted earlier, and the
pairs of the query `b=1&a=2` are iterated as `(a, 2)`, `(b, 1)`. -/
theorem C4_insertion_order_counterexample :
    uri.parse (bytes "http://www.example.org/path/path1?qkey=qval#frag") = .ok test_uri
    ∧ test_uri.query = [(bytes "qkey", bytes "qval")]
    ∧ (test_uri.append_query (bytes "new_key") (bytes "va l")).query
        = [(bytes "new_key", bytes "va l"), (bytes "qkey", bytes "qval")]
    ∧ (test_uri.append_query (bytes "new_key") (bytes "va l")).query
        ≠ test_uri.query ++ [(bytes "new_key", bytes "va l")]
    ∧ (uri.parse (bytes "http://www.example.org/?b=1&a=2")).map uri.query
        = .ok [(bytes "a", bytes "2"), (bytes "b", bytes "1")] := by
  decide

/-- C4, amended: for an accepted input followed by any `append_query` calls,
iteration of `query()` is in non-decreasing order of the keys, and for each key
the pairs with that key appear in insertion order, that is in the order of the
calls `parse` made for the input followed by the later calls. -/
theorem C4_query_order (s : Str) (u : uri) (app : List (Str × Str))
    (h : uri.parse s = .ok u) :
    ∃ u0 query ps, parse_sections s = .ok (u0, query) ∧ parse_calls query = .ok ps
      ∧ (append_all u app).query.Pairwise key_le
      ∧ ∀ key : Str, (append_all u app).query.filter (fun p => decide (p.1 = key))
          = (ps ++ app).filter (fun p => decide (p.1 = key)) := by
  obtain ⟨u0, query, ps, h0, hc, hnil, rfl⟩ := parse_ok_calls h
  refine ⟨u0, query, ps, h0, hc, ?_, ?_⟩
  · rw [append_all_append]
    exact append_all_sorted u0 _ (by rw [hnil]; exact List.Pairwise.nil)
  · intro key
    rw [append_all_append]
    have := append_all_filter u0 (ps ++ app) (by rw [hnil]; exact List.Pairwise.nil) key
    rw [hnil] at this
    simpa using this

/-- C4 amended, at the query `b=1&a=2&a=1` followed by two appended pairs. -/
theorem C4_query_order_witness :
    (∃ u0 query ps,
      parse_sections (bytes "http://www.example.org/?b=1&a=2&a=1") = .ok (u0, query)
      ∧ parse_calls query = .ok ps
      ∧ (append_all ⟨false, bytes "www.example.org", 80, bytes "/", [],
            [(bytes "a", bytes "2"), (bytes "a", bytes "1"), (bytes "b", bytes "1")]⟩
          [(bytes "a", bytes "0"), (bytes "B", bytes "3")]).query.Pairwise key_le
      ∧ ∀ key : Str,
          (append_all ⟨false, bytes "www.example.org", 80, bytes "/", [],
              [(bytes "a", bytes "2"), (bytes "a", bytes "1"), (bytes "b", bytes "1")]⟩
            [(bytes "a", bytes "0"), (bytes "B", bytes "3")]).query.filter
              (fun p => decide (p.1 = key))
          = (ps ++ [(bytes "a", bytes "0"), (bytes "B", bytes "3")]).filter
              (fun p => decide (p.1 = key)))
    ∧ parse_calls (bytes "b=1&a=2&a=1")
        = .ok [(bytes "b", bytes "1"), (bytes "a", bytes "2"), (bytes "a", bytes "1")]
    ∧ (append_all ⟨false, bytes "www.example.org", 80, bytes "/", [],
          [(bytes "a", bytes "2"), (bytes "a", bytes "1"), (bytes "b", bytes "1")]⟩
        [(bytes "a", bytes "0"), (bytes "B", bytes "3")]).query
        = [(bytes "B", bytes "3"), (bytes "a", bytes "2"), (bytes "a", bytes "1"),
            (bytes "a", bytes "0"), (bytes "b", bytes "1")] :=
  ⟨C4_query_order (bytes "http://www.example.org/?b=1&a=2&a=1") _ _ (by decide), by decide,
    by decide⟩

/-- C5: for every value reached by `parse` followed by any sequence of
`append_query` calls, iteration of `query()` visits the pairs in non-decreasing
order of their keys. -/
theorem C5_query_sorted_by_key (s : Str) (u : uri) (app : List (Str × Str))
    (h : uri.parse s = .ok u) :
    (append_all u app).query.Pairwise key_le := by
  obtain ⟨u0, _, ps, _, _, hnil, rfl⟩ := parse_ok_calls h
  rw [append_all_append]
  exact append_all_sorted u0 _ (by rw [hnil]; exact List.Pairwise.nil)


/-- C5 at the test URI followed by `append_query("new_key", "va l")`: iteration
yields `(new_key, "va l")`, then `(qkey, qval)`, then ends. -/
theorem C5_query_sorted_by_key_witness :
    (append_all test_uri [(bytes "new_key", bytes "va l")]).query.Pairwise key_le
    ∧ (append_all test_uri [(bytes "new_key", bytes "va l")]).query
        = [(bytes "new_key", bytes "va l"), (bytes "qkey", bytes "qval")] :=
  ⟨C5_query_sorted_by_key (bytes "http://www.example.org/path/path1?qkey=qval#frag") test_uri
    [(bytes "new_key", bytes "va l")] (by decide), by decide⟩

/-! ## Serialization -/

/-- C6: `authority()` is `host()` alone when the port is the default of the
scheme (80 when not secure, 443 when secure) and `host() + ":" +` the decimal
port otherwise; `str()` is `http://` or `https://` followed by that authority,
the path, the query and the fragment.  The five example URIs serialize with
`:443` and `:80` left out and `:8080`, `:8080`, `:80` kept. -/
theorem C6_default_port_omission (u : uri) :
    u.authority
      = (if (u.secure = false ∧ u.port = 80) ∨ (u.secure = true ∧ u.port = 443) then u.host
         else u.host ++ bytes ":" ++ decimal u.port)
    ∧ u.str
      = (if u.secure = true then bytes "https://" else bytes "http://") ++ u.authority
        ++ u.path
        ++ (if u.query = [] then [] else bytes "?" ++ u.query_string)
        ++ (if u.fragment = [] then [] else bytes "#" ++ u.fragment)
    ∧ (uri.parse (bytes "https://h:443/p")).map uri.str = .ok (bytes "https://h/p")
    ∧ (uri.parse (bytes "http://h:80/p")).map uri.str = .ok (bytes "http://h/p")
    ∧ (uri.parse (bytes "http://h:8080/p")).map uri.str = .ok (bytes "http://h:8080/p")
    ∧ (uri.parse (bytes "https://h:8080/p")).map uri.str = .ok (bytes "https://h:8080/p")
    ∧ (uri.parse (bytes "https://h:80/p")).map uri.str = .ok (bytes "https://h:80/p") := by
  refine ⟨?_, ?_, by decide, by decide, by decide, by decide, by decide⟩
  · obtain ⟨sec, host, port, path, frag, q⟩ := u
    cases sec <;> by_cases h80 : port = 80 <;> by_cases h443 : port = 443 <;>
      simp [uri.authority, uri.secure, uri.port, uri.host, h80, h443, bytes]
  · obtain ⟨sec, host, port, path, frag, q⟩ := u
    cases q <;> cases frag <;>
      simp [uri.str, uri.authority, uri.secure, uri.port, uri.host, uri.path, uri.query,
        uri.fragment, bytes]

/-! ## The scheme check -/

theorem parse_scheme_of_http (p rest : Str) (hp : is_http p) :
    parse_scheme (p ++ rest) = .ok (false, rest) := by
  obtain ⟨a, b, c, d, rfl, ha, hb, hc, hd⟩ := hp
  rcases ha with rfl | rfl <;> rcases hb with rfl | rfl <;> rcases hc with rfl | rfl <;>
    rcases hd with rfl | rfl <;> simp [parse_scheme, peek]

theorem parse_scheme_of_https (p rest : Str) (hp : is_https p) :
    parse_scheme (p ++ rest) = .ok (true, rest) := by
  obtain ⟨a, b, c, d, e, rfl, ha, hb, hc, hd, he⟩ := hp
  rcases ha with rfl | rfl <;> rcases hb with rfl | rfl <;> rcases hc with rfl | rfl <;>
    rcases hd with rfl | rfl <;> rcases he with rfl | rfl <;> simp [parse_scheme, peek]

theorem peek_eq_cons {c : Str} {x : Nat} (h : peek c = x) (hx : x ≠ 0) : c = x :: c.tail := by
  cases c with
  | nil => simp [peek] at h; omega
  | cons y ys => simp [peek] at h; simp [h]

theorem parse_scheme_ok {s rest : Str} {sec : Bool} (h : parse_scheme s = .ok (sec, rest)) :
    ∃ p, s = p ++ rest ∧ ((sec = false ∧ is_http p) ∨ (sec = true ∧ is_https p)) := by
  by_cases hs : peek s.tail.tail.tail.tail = 115 ∨ peek s.tail.tail.tail.tail = 83
  · simp only [parse_scheme, hs, decide_True, if_true, ne_eq, ite_not, Bool.not_eq_true',
      decide_eq_false_iff_not] at h
    split at h <;> [skip; cases h]
    rename_i h1
    split at h <;> [skip; cases h]
    rename_i h2
    split at h <;> [skip; cases h]
    rename_i h3
    split at h <;> [skip; cases h]
    rename_i h4
    split at h <;> [skip; cases h]
    rename_i h5
    split at h <;> [skip; cases h]
    rename_i h6
    split at h <;> [skip; cases h]
    rename_i h7
    simp only [Except.ok.injEq, Prod.mk.injEq] at h
    obtain ⟨hsec, hrest⟩ := h
    rcases s with _ | ⟨a, s⟩
    · simp [peek] at h1
    simp only [peek, List.headD_cons, List.tail_cons] at h1 h2 h3 h4 hs h5 h6 h7 hrest
    rcases s with _ | ⟨b, s⟩
    · simp [peek] at h2
    simp only [peek, List.headD_cons, List.tail_cons] at h1 h2 h3 h4 hs h5 h6 h7 hrest
    rcases s with _ | ⟨c, s⟩
    · simp [peek] at h3
    simp only [peek, List.headD_cons, List.tail_cons] at h1 h2 h3 h4 hs h5 h6 h7 hrest
    rcases s with _ | ⟨d, s⟩
    · simp [peek] at h4
    simp only [peek, List.headD_cons, List.tail_cons] at h1 h2 h3 h4 hs h5 h6 h7 hrest
    rcases s with _ | ⟨e, s⟩
    · simp [peek] at hs
    simp only [peek, List.headD_cons, List.tail_cons] at h1 h2 h3 h4 hs h5 h6 h7 hrest
    rcases s with _ | ⟨f, s⟩
    · simp [peek] at h5
    simp only [peek, List.headD_cons, List.tail_cons] at h1 h2 h3 h4 hs h5 h6 h7 hrest
    rcases s with _ | ⟨g, s⟩
    · simp [peek] at h6
    simp only [peek, List.headD_cons, List.tail_cons] at h1 h2 h3 h4 hs h5 h6 h7 hrest
    rcases s with _ | ⟨i, s⟩
    · simp [peek] at h7
    simp only [peek, List.headD_cons, List.tail_cons] at h1 h2 h3 h4 hs h5 h6 h7 hrest
    exact ⟨[a, b, c, d, e, 58, 47, 47], by simp [← hrest, h5, h6, h7],
      Or.inr ⟨hsec.symm, a, b, c, d, e, rfl, h1, h2, h3, h4, hs⟩⟩
  · simp only [parse_scheme, hs, decide_False, if_false, ne_eq, ite_not, Bool.not_eq_true',
      decide_eq_false_iff_not, Bool.false_eq_true] at h
    split at h <;> [skip; cases h]
    rename_i h1
    split at h <;> [skip; cases h]
    rename_i h2
    split at h <;> [skip; cases h]
    rename_i h3
    split at h <;> [skip; cases h]
    rename_i h4
    split at h <;> [skip; cases h]
    rename_i h5
    split at h <;> [skip; cases h]
    rename_i h6
    split at h <;> [skip; cases h]
    rename_i h7
    simp only [Except.ok.injEq, Prod.mk.injEq] at h
    obtain ⟨hsec, hrest⟩ := h
    rcases s with _ | ⟨a, s⟩
    · simp [peek] at h1
    simp only [peek, List.headD_cons, List.tail_cons] at h1 h2 h3 h4 hs h5 h6 h7 hrest
    rcases s with _ | ⟨b, s⟩
    · simp [peek] at h2
    simp only [peek, List.headD_cons, List.tail_cons] at h1 h2 h3 h4 hs h5 h6 h7 hrest
    rcases s with _ | ⟨c, s⟩
    · simp [peek] at h3
    simp only [peek, List.headD_cons, List.tail_cons] at h1 h2 h3 h4 hs h5 h6 h7 hrest
    rcases s with _ | ⟨d, s⟩
    · simp [peek] at h4
    simp only [peek, List.headD_cons, List.tail_cons] at h1 h2 h3 h4 hs h5 h6 h7 hrest
    rcases s with _ | ⟨e, s⟩
    · simp [peek] at h5
    simp only [peek, List.headD_cons, List.tail_cons] at h1 h2 h3 h4 hs h5 h6 h7 hrest
    rcases s with _ | ⟨f, s⟩
    · simp [peek] at h6
    simp only [peek, List.headD_cons, List.tail_cons] at h1 h2 h3 h4 hs h5 h6 h7 hrest
    rcases s with _ | ⟨g, s⟩
    · simp [peek] at h7
    simp only [peek, List.headD_cons, List.tail_cons] at h1 h2 h3 h4 hs h5 h6 h7 hrest
    exact ⟨[a, b, c, d, 58, 47, 47], by simp [← hrest, h5, h6, h7],
      Or.inl ⟨hsec.symm, a, b, c, d, rfl, h1, h2, h3, h4⟩⟩

theorem parse_scheme_error {s : Str} {e : ParseError} (h : parse_scheme s = .error e) :
    e = .InvalidScheme := by
  dsimp only [parse_scheme] at h
  repeat' split at h
  all_goals first | cases h; rfl | cases h

/-! ## Errors of the later sections -/

theorem scan_port_error {c : Str} {e : ParseError} (h : scan_port c = .error e) :
    e = .InvalidPort := by
  induction c generalizing e with
  | nil => simp [scan_port] at h
  | cons x xs ih =>
    rw [scan_port] at h
    split at h
    · cases h
    · split at h
      · cases h; rfl
      · cases hr : scan_port xs with
        | error e' =>
          rw [hr] at h
          simp only [Except.error.injEq] at h
          rw [← h]; exact ih hr
        | ok r => rw [hr] at h; cases h

theorem parse_port_error {sec : Bool} {c : Str} {e : ParseError}
    (h : parse_port sec c = .error e) : e = .InvalidPort ∨ e = .BadLexicalCast := by
  unfold parse_port at h
  split at h
  · cases h
  · cases hr : scan_port c.tail with
    | error e' =>
      rw [hr] at h
      simp only [Except.error.injEq] at h
      rw [← h]; exact Or.inl (scan_port_error hr)
    | ok r =>
      rw [hr] at h
      simp only at h
      split at h
      · cases h; exact Or.inr rfl
      · cases h

theorem calls_error (q : Str) :
    (∀ (os : Str) (e : ParseError), calls_key os q = .error e
        → e = .InvalidQuery ∨ e = .InvalidQueryKeyEmpty)
    ∧ (∀ (qkey os : Str) (e : ParseError), calls_val qkey os q = .error e
        → e = .InvalidQuery ∨ e = .InvalidQueryKeyEmpty) := by
  induction q with
  | nil =>
    constructor
    · intro os e h; simp [calls_key] at h; exact Or.inl h.symm
    · intro qkey os e h; simp [calls_val] at h
  | cons c q ih =>
    obtain ⟨ihk, ihv⟩ := ih
    constructor
    · intro os e h
      rw [calls_key] at h
      split at h
      · exact ihk _ _ h
      · split at h
        · cases h; exact Or.inl rfl
        · split at h
          · cases h; exact Or.inr rfl
          · exact ihv _ _ _ h
    · intro qkey os e h
      rw [calls_val] at h
      split at h
      · exact ihv _ _ _ h
      · split at h
        · cases hr : calls_key [] q with
          | error e' =>
            rw [hr] at h
            simp only [Except.error.injEq] at h
            rw [← h]; exact ihk _ _ hr
          | ok r => rw [hr] at h; cases h
        · cases h

theorem parse_calls_error {query : Str} {e : ParseError} (h : parse_calls query = .error e) :
    e = .InvalidQuery ∨ e = .InvalidQueryKeyEmpty := by
  unfold parse_calls at h
  split at h
  · exact (calls_error query).1 _ _ h
  · cases h

/-- Outcome of `parse` once the length and scheme checks have passed. -/
theorem parse_of_scheme_ok {s c : Str} {sec : Bool} (hlen : 9 ≤ s.length)
    (hs : parse_scheme s = .ok (sec, c)) :
    uri.parse s
      = if (scan host_stop c).1.isEmpty then .error .HostNotFound
        else
          match parse_port sec (scan host_stop c).2 with
          | .error e => .error e
          | .ok (port, c2) =>
            match parse_calls (parse_rest c2).2.1 with
            | .error e => .error e
            | .ok ps =>
              .ok (append_all
                ⟨sec, (scan host_stop c).1, port, (parse_rest c2).1, (parse_rest c2).2.2, []⟩ ps) := by
  rw [parse_eq_calls]
  unfold parse_sections
  rw [if_neg (by omega), hs]
  simp only
  by_cases hh : (scan host_stop c).1.isEmpty = true
  · simp only [hh, if_true]
  · simp only [hh, if_false, Bool.false_eq_true]
    cases parse_port sec (scan host_stop c).2 with
    | error e => rfl
    | ok r => rfl

theorem parse_of_scheme_error {s : Str} {e : ParseError} (hlen : 9 ≤ s.length)
    (hs : parse_scheme s = .error e) : uri.parse s = .error .InvalidScheme := by
  have he := parse_scheme_error hs
  subst he
  unfold uri.parse parse_sections
  rw [if_neg (by omega), hs]

theorem parse_too_short {s : Str} (hlen : s.length < 9) : uri.parse s = .error .TooShort := by
  unfold uri.parse parse_sections
  rw [if_pos hlen]

theorem append_all_fields (u : uri) (ps : List (Str × Str)) :
    (append_all u ps).secure_ = u.secure_ ∧ (append_all u ps).host_ = u.host_
    ∧ (append_all u ps).port_ = u.port_ ∧ (append_all u ps).path_ = u.path_
    ∧ (append_all u ps).fragment_ = u.fragment_ := by
  induction ps generalizing u with
  | nil => exact ⟨rfl, rfl, rfl, rfl, rfl⟩
  | cons p ps ih => exact ih (u.append_query p.1 p.2)

/-- What an accepted input determines: the scheme check, the port section and
the calls of the query loop all succeeded. -/
theorem parse_ok_sections {s : Str} {u : uri} (h : uri.parse s = .ok u) :
    9 ≤ s.length ∧ ∃ sec c port c2 ps,
      parse_scheme s = .ok (sec, c)
      ∧ (scan host_stop c).1 ≠ []
      ∧ parse_port sec (scan host_stop c).2 = .ok (port, c2)
      ∧ parse_calls (parse_rest c2).2.1 = .ok ps
      ∧ u = append_all
          ⟨sec, (scan host_stop c).1, port, (parse_rest c2).1, (parse_rest c2).2.2, []⟩ ps := by
  by_cases hlen : s.length < 9
  · rw [parse_too_short hlen] at h; cases h
  have hlen : 9 ≤ s.length := by omega
  refine ⟨hlen, ?_⟩
  cases hs : parse_scheme s with
  | error e => rw [parse_of_scheme_error hlen hs] at h; cases h
  | ok r =>
    obtain ⟨sec, c⟩ := r
    rw [parse_of_scheme_ok hlen hs] at h
    split at h
    · cases h
    rename_i hh
    cases hp : parse_port sec (scan host_stop c).2 with
    | error e => rw [hp] at h; cases h
    | ok r =>
      obtain ⟨port, c2⟩ := r
      rw [hp] at h
      simp only at h
      cases hc : parse_calls (parse_rest c2).2.1 with
      | error e => rw [hc] at h; cases h
      | ok ps =>
        rw [hc] at h
        simp only [Except.ok.injEq] at h
        refine ⟨sec, c, port, c2, ps, rfl, ?_, hp, hc, h.symm⟩
        intro hnil
        rw [hnil] at hh
        exact hh rfl

/-! ## Scheme recognition -/

theorem parse_ne_InvalidScheme_of_scheme_ok {s c : Str} {sec : Bool} (hlen : 9 ≤ s.length)
    (hs : parse_scheme s = .ok (sec, c)) : uri.parse s ≠ .error .InvalidScheme := by
  rw [parse_of_scheme_ok hlen hs]
  split
  · intro h; cases h
  · cases hp : parse_port sec (scan host_stop c).2 with
    | error e =>
      intro h
      simp only [Except.error.injEq] at h
      rcases parse_port_error hp with h' | h' <;> rw [h'] at h <;> cases h
    | ok r =>
      obtain ⟨port, c2⟩ := r
      simp only
      cases hc : parse_calls (parse_rest c2).2.1 with
      | error e =>
        intro h
        simp only [Except.error.injEq] at h
        rcases parse_calls_error hc with h' | h' <;> rw [h'] at h <;> cases h
      | ok ps => intro h; cases h

/-- C8: for an input of at least 9 characters, `parse` fails with
`invalid scheme` exactly when the input does not begin with `http://` or
`https://` (letters in either case); for an accepted input `secure()` holds
exactly when the input begins with `https://`, and `scheme()` is `https` when
secure and `http` otherwise. -/
theorem C8_scheme_recognition (s : Str) (hlen : 9 ≤ s.length) :
    (uri.parse s = .error .InvalidScheme
      ↔ ¬ ∃ p rest, (is_http p ∨ is_https p) ∧ s = p ++ rest)
    ∧ ∀ u, uri.parse s = .ok u →
        (u.secure = true ↔ ∃ p rest, is_https p ∧ s = p ++ rest)
        ∧ u.scheme = (if u.secure = true then bytes "https" else bytes "http") := by
  constructor
  · constructor
    · rintro h ⟨p, rest, hp | hp, rfl⟩
      · exact parse_ne_InvalidScheme_of_scheme_ok hlen (parse_scheme_of_http p rest hp) h
      · exact parse_ne_InvalidScheme_of_scheme_ok hlen (parse_scheme_of_https p rest hp) h
    · intro h
      cases hs : parse_scheme s with
      | error e => exact parse_of_scheme_error hlen hs
      | ok r =>
        obtain ⟨sec, c⟩ := r
        obtain ⟨p, hp, hor⟩ := parse_scheme_ok hs
        exact absurd ⟨p, c, hor.elim (fun x => Or.inl x.2) (fun x => Or.inr x.2), hp⟩ h
  · intro u hu
    obtain ⟨_, sec, c, port, c2, ps, hs, _, _, _, rfl⟩ := parse_ok_sections hu
    have hsec : (append_all ⟨sec, (scan host_stop c).1, port, (parse_rest c2).1,
        (parse_rest c2).2.2, []⟩ ps).secure = sec := (append_all_fields _ ps).1
    refine ⟨?_, rfl⟩
    rw [hsec]
    constructor
    · intro h
      obtain ⟨p, hp, hor⟩ := parse_scheme_ok hs
      rcases hor with ⟨h', _⟩ | ⟨_, h'⟩
      · rw [h] at h'; cases h'
      · exact ⟨p, c, h', hp⟩
    · rintro ⟨p, rest, hp, rfl⟩
      rw [parse_scheme_of_https p rest hp] at hs
      simp only [Except.ok.injEq, Prod.mk.injEq] at hs
      exact hs.1.symm

/-- C8 at `file://foo/`, with the two rejected URIs of the test suite and an
accepted upper-case `HTTPS://` input. -/
theorem C8_scheme_recognition_witness :
    ((uri.parse (bytes "file://foo/") = .error .InvalidScheme
        ↔ ¬ ∃ p rest, (is_http p ∨ is_https p) ∧ bytes "file://foo/" = p ++ rest)
      ∧ ∀ u, uri.parse (bytes "file://foo/") = .ok u →
          (u.secure = true ↔ ∃ p rest, is_https p ∧ bytes "file://foo/" = p ++ rest)
          ∧ u.scheme = (if u.secure = true then bytes "https" else bytes "http"))
    ∧ uri.parse (bytes "file://foo/") = .error .InvalidScheme
    ∧ uri.parse (bytes "www.example.org:80/path/path1?qkey=qval#frag") = .error .InvalidScheme
    ∧ (uri.parse (bytes "HtTpS://h/")).map uri.scheme = .ok (bytes "https")
    ∧ (uri.parse (bytes "hTTp://ab")).map uri.scheme = .ok (bytes "http") :=
  ⟨C8_scheme_recognition (bytes "file://foo/") (by decide), by decide, by decide, by decide,
    by decide⟩

/-! ## What the scanning loops consume -/

theorem scan_fst (stop : Nat → Bool) (l : Str) :
    (scan stop l).1 = l.takeWhile (fun c => !stop c) := by
  induction l with
  | nil => rfl
  | cons x xs ih =>
    by_cases hx : stop x = true
    · simp [scan, hx, List.takeWhile_cons]
    · simp [scan, hx, List.takeWhile_cons, ih]

theorem scan_join (stop : Nat → Bool) (l : Str) : (scan stop l).1 ++ (scan stop l).2 = l := by
  induction l with
  | nil => rfl
  | cons x xs ih =>
    by_cases hx : stop x = true
    · simp [scan, hx]
    · simp [scan, hx, ih]

theorem scan_fst_not_stop (stop : Nat → Bool) (l : Str) :
    ∀ c ∈ (scan stop l).1, stop c = false := by
  induction l with
  | nil => simp [scan]
  | cons x xs ih =>
    by_cases hx : stop x = true
    · simp [scan, hx]
    · intro c hc
      simp only [scan, hx, if_false, Bool.false_eq_true, List.mem_cons] at hc
      rcases hc with rfl | hc
      · simpa using hx
      · exact ih c hc

theorem scan_snd_head (stop : Nat → Bool) (l : Str) :
    (scan stop l).2 = [] ∨ ∃ d t, (scan stop l).2 = d :: t ∧ stop d = true := by
  induction l with
  | nil => exact Or.inl rfl
  | cons x xs ih =>
    by_cases hx : stop x = true
    · exact Or.inr ⟨x, xs, by simp [scan, hx], hx⟩
    · simpa [scan, hx] using ih

theorem scan_port_ok {c ds r : Str} (h : scan_port c = .ok (ds, r)) :
    c = ds ++ r ∧ (∀ x ∈ ds, 48 ≤ x ∧ x ≤ 57)
      ∧ (r = [] ∨ ∃ d t, r = d :: t ∧ port_stop d = true) := by
  induction c generalizing ds with
  | nil =>
    simp only [scan_port, Except.ok.injEq, Prod.mk.injEq] at h
    obtain ⟨rfl, rfl⟩ := h
    simp
  | cons x xs ih =>
    rw [scan_port] at h
    split at h
    · rename_i hx
      simp only [Except.ok.injEq, Prod.mk.injEq] at h
      obtain ⟨rfl, rfl⟩ := h
      exact ⟨rfl, by simp, Or.inr ⟨x, xs, rfl, hx⟩⟩
    · split at h
      · cases h
      · rename_i hd
        cases hr : scan_port xs with
        | error e => rw [hr] at h; cases h
        | ok res =>
          obtain ⟨os, rest⟩ := res
          rw [hr] at h
          simp only [Except.ok.injEq, Prod.mk.injEq] at h
          obtain ⟨rfl, rfl⟩ := h
          obtain ⟨h1, h2, h3⟩ := ih hr
          refine ⟨by rw [h1]; rfl, ?_, h3⟩
          intro y hy
          rcases List.mem_cons.1 hy with rfl | hy
          · simpa using hd
          · exact h2 y hy

theorem scan_port_non_digit (ds : Str) (c : Nat) (rest : Str)
    (hd : ∀ x ∈ ds, 48 ≤ x ∧ x ≤ 57) (hc : ¬ (48 ≤ c ∧ c ≤ 57))
    (hc' : c ≠ 47 ∧ c ≠ 63 ∧ c ≠ 35 ∧ c ≠ 0) :
    scan_port (ds ++ c :: rest) = .error .InvalidPort := by
  induction ds with
  | nil =>
    have : port_stop c = false := by simp [port_stop, hc']
    simp [scan_port, this, hc]
  | cons x xs ih =>
    have hx := hd x (List.mem_cons_self _ _)
    have : port_stop x = false := by
      simp only [port_stop, decide_eq_false_iff_not]; omega
    simp [scan_port, this, hx, ih (fun y hy => hd y (List.mem_cons_of_mem _ hy))]

theorem parse_port_ok {sec : Bool} {c c2 : Str} {port : Nat}
    (h : parse_port sec c = .ok (port, c2)) :
    (peek c ≠ 58 ∧ c2 = c ∧ port = if sec = true then 443 else 80)
    ∨ ∃ ds, c = 58 :: (ds ++ c2) ∧ (∀ x ∈ ds, 48 ≤ x ∧ x ≤ 57)
        ∧ (c2 = [] ∨ ∃ d t, c2 = d :: t ∧ port_stop d = true)
        ∧ lexical_cast_ushort ds = some port := by
  unfold parse_port at h
  split at h
  · rename_i hc
    simp only [Except.ok.injEq, Prod.mk.injEq] at h
    exact Or.inl ⟨hc, h.2.symm, h.1.symm⟩
  · rename_i hc
    right
    have hc58 : peek c = 58 := by simpa using hc
    have hcons := peek_eq_cons hc58 (by decide)
    cases hr : scan_port c.tail with
    | error e => rw [hr] at h; cases h
    | ok res =>
      obtain ⟨os, rest⟩ := res
      rw [hr] at h
      simp only at h
      cases hl : lexical_cast_ushort os with
      | none => rw [hl] at h; cases h
      | some n =>
        rw [hl] at h
        simp only [Except.ok.injEq, Prod.mk.injEq] at h
        obtain ⟨rfl, rfl⟩ := h
        obtain ⟨h1, h2, h3⟩ := scan_port_ok hr
        exact ⟨os, by rw [← h1]; exact hcons, h2, h3, hl⟩

/-! ## Host and port sections -/

theorem length_of_scheme {p : Str} (hp : is_http p ∨ is_https p) : 7 ≤ p.length := by
  rcases hp with ⟨a, b, c, d, rfl, _⟩ | ⟨a, b, c, d, e, rfl, _⟩ <;> simp

theorem parse_scheme_of_scheme {p : Str} (rest : Str) (hp : is_http p ∨ is_https p) :
    ∃ sec, parse_scheme (p ++ rest) = .ok (sec, rest) :=
  hp.elim (fun h => ⟨false, parse_scheme_of_http p rest h⟩)
    (fun h => ⟨true, parse_scheme_of_https p rest h⟩)

/-- C9 as stated fails: for the 12-character input `http://ab\0cd` the host is
`ab`, while the longest run behind `://` without `:`, `/`, `?`, `#` is
`ab\0cd`. -/
theorem C9_host_run_counterexample :
    (bytes "http://ab" ++ [0] ++ bytes "cd").length = 12
    ∧ (uri.parse (bytes "http://ab" ++ [0] ++ bytes "cd")).map uri.host = .ok (bytes "ab")
    ∧ (bytes "ab" ++ [0] ++ bytes "cd").takeWhile
          (fun c => decide (c ≠ 58 ∧ c ≠ 47 ∧ c ≠ 63 ∧ c ≠ 35))
        = bytes "ab" ++ [0] ++ bytes "cd"
    ∧ bytes "ab" ≠ bytes "ab" ++ [0] ++ bytes "cd" := by
  decide

/-- C9, amended: an input of at least 9 characters whose `http://` or
`https://` is followed by `:`, `/`, `?` or `#` fails with `host not found`; for
an accepted input `host()` is not empty and is the longest run behind `://`
without `:`, `/`, `?`, `#` and NUL. -/
theorem C9_empty_host (s : Str) :
    (∀ p d rest, 9 ≤ s.length → (is_http p ∨ is_https p) → s = p ++ d :: rest
        → (d = 58 ∨ d = 47 ∨ d = 63 ∨ d = 35) → uri.parse s = .error .HostNotFound)
    ∧ ∀ u, uri.parse s = .ok u →
        u.host ≠ []
        ∧ ∃ p rest, (is_http p ∨ is_https p) ∧ s = p ++ rest
            ∧ u.host = rest.takeWhile
                (fun c => decide (c ≠ 58 ∧ c ≠ 47 ∧ c ≠ 63 ∧ c ≠ 35 ∧ c ≠ 0)) := by
  constructor
  · rintro p d rest hlen hp rfl hd
    obtain ⟨sec, hs⟩ := parse_scheme_of_scheme (d :: rest) hp
    rw [parse_of_scheme_ok hlen hs]
    have : host_stop d = true := by
      rcases hd with rfl | rfl | rfl | rfl <;> decide
    simp [scan, this]
  · intro u hu
    obtain ⟨_, sec, c, port, c2, ps, hs, hne, _, _, rfl⟩ := parse_ok_sections hu
    have hhost : (append_all ⟨sec, (scan host_stop c).1, port, (parse_rest c2).1,
        (parse_rest c2).2.2, []⟩ ps).host = (scan host_stop c).1 := (append_all_fields _ ps).2.1
    obtain ⟨p, hp, hor⟩ := parse_scheme_ok hs
    rw [hhost]
    refine ⟨hne, p, c, hor.elim (fun x => Or.inl x.2) (fun x => Or.inr x.2), hp, ?_⟩
    rw [scan_fst]
    congr 1
    funext x
    simp only [host_stop, Bool.decide_or, Bool.not_or, ne_eq, Bool.decide_and, decide_not]

/-- C9 amended, at the rejected `http://:80/path` and the accepted
`http://localhost/`. -/
theorem C9_empty_host_witness :
    uri.parse (bytes "http://:80/path") = .error .HostNotFound
    ∧ (bytes "localhost" ≠ []
      ∧ ∃ p rest, (is_http p ∨ is_https p) ∧ bytes "http://localhost/" = p ++ rest
          ∧ bytes "localhost" = rest.takeWhile
              (fun c => decide (c ≠ 58 ∧ c ≠ 47 ∧ c ≠ 63 ∧ c ≠ 35 ∧ c ≠ 0)))
    ∧ uri.parse (bytes "http:///path") = .error .HostNotFound
    ∧ uri.parse (bytes "http://?query") = .error .HostNotFound
    ∧ uri.parse (bytes "http://#frag") = .error .HostNotFound :=
  ⟨(C9_empty_host (bytes "http://:80/path")).1 (bytes "http://") 58 (bytes "80/path")
      (by decide) (Or.inl ⟨104, 116, 116, 112, rfl, by decide, by decide, by decide, by decide⟩)
      rfl (by decide),
    (C9_empty_host (bytes "http://localhost/")).2
      ⟨false, bytes "localhost", 80, bytes "/", [], []⟩ (by decide),
    by decide, by decide, by decide⟩

/-- C10 as stated fails: in the 11-character input `http://h:8\0` the port
segment `8\0` contains the non-digit NUL, and `parse` returns a URI with port 8. -/
theorem C10_non_digit_port_counterexample :
    uri.parse (bytes "http://h:8" ++ [0])
        = .ok ⟨false, bytes "h", 8, bytes "/", [], []⟩
    ∧ (bytes "8" ++ [0]).takeWhile (fun c => decide (c ≠ 47 ∧ c ≠ 63 ∧ c ≠ 35))
        = bytes "8" ++ [0]
    ∧ ∃ c ∈ bytes "8" ++ [0], ¬ (48 ≤ c ∧ c ≤ 57) := by
  decide

/-- C10, amended: when `http://` or `https://` is followed by a non-empty host
without NUL, a `:`, decimal digits and then a character that is neither a
digit nor `/`, `?`, `#` nor NUL, `parse` fails with `invalid port`. -/
theorem C10_non_digit_port (p host digits rest : Str) (c : Nat)
    (hp : is_http p ∨ is_https p)
    (hh : host ≠ []) (hh' : ∀ x ∈ host, x ≠ 58 ∧ x ≠ 47 ∧ x ≠ 63 ∧ x ≠ 35 ∧ x ≠ 0)
    (hd : ∀ x ∈ digits, 48 ≤ x ∧ x ≤ 57)
    (hc : ¬ (48 ≤ c ∧ c ≤ 57)) (hc' : c ≠ 47 ∧ c ≠ 63 ∧ c ≠ 35 ∧ c ≠ 0) :
    uri.parse (p ++ host ++ bytes ":" ++ digits ++ [c] ++ rest) = .error .InvalidPort := by
  have e : p ++ host ++ bytes ":" ++ digits ++ [c] ++ rest
      = p ++ (host ++ 58 :: (digits ++ c :: rest)) := by simp [bytes]
  rw [e]
  obtain ⟨sec, hs⟩ := parse_scheme_of_scheme (host ++ 58 :: (digits ++ c :: rest)) hp
  have hlen : 9 ≤ (p ++ (host ++ 58 :: (digits ++ c :: rest))).length := by
    have h1 := length_of_scheme hp
    have h2 : 0 < host.length := List.length_pos.2 hh
    simp only [List.length_append, List.length_cons]
    omega
  rw [parse_of_scheme_ok hlen hs]
  have hstop : ∀ x ∈ host, host_stop x = false := fun x hx => by
    have := hh' x hx; simp [host_stop, this]
  rw [scan_append_stop host_stop host 58 _ hstop (by decide)]
  have hne : host.isEmpty = false := by cases host <;> simp at hh ⊢
  simp only [hne, Bool.false_eq_true, if_false, parse_port, peek, List.headD_cons, ne_eq,
    not_true_eq_false, List.tail_cons, scan_port_non_digit digits c rest hd hc hc']

/-- C10 amended, at `https://www.example.org:aa9/path/path1?qkey=qval#frag`. -/
theorem C10_non_digit_port_witness :
    uri.parse (bytes "https://www.example.org:aa9/path/path1?qkey=qval#frag")
      = .error .InvalidPort :=
  C10_non_digit_port (bytes "https://") (bytes "www.example.org") [] (bytes "a9/path/path1?qkey=qval#frag")
    97 (Or.inr ⟨104, 116, 116, 112, 115, rfl, by decide, by decide, by decide, by decide, by decide⟩)
    (by decide) (by decide) (by decide) (by decide) (by decide)

/-! ## Path, query and fragment sections -/

theorem parse_rest_nil : parse_rest [] = ([47], [], []) := by
  simp [parse_rest, peek]

theorem parse_rest_path_of_delim (d : Nat) (t : Str) (hd : d = 63 ∨ d = 35 ∨ d = 0) :
    (parse_rest (d :: t)).1 = [47] := by
  rcases hd with rfl | rfl | rfl <;> simp [parse_rest, peek]

theorem parse_rest_path_of_slash (t : Str) :
    (parse_rest (47 :: t)).1
      = (47 :: t).takeWhile (fun c => decide (c ≠ 63 ∧ c ≠ 35 ∧ c ≠ 0)) := by
  have e : (fun c => !path_stop c) = (fun c => decide (c ≠ 63 ∧ c ≠ 35 ∧ c ≠ 0)) := by
    funext x
    simp only [path_stop, Bool.decide_or, Bool.not_or, ne_eq, Bool.decide_and, decide_not]
  simp [parse_rest, peek, scan_fst, e, List.takeWhile_cons]

theorem parse_rest_path (c : Str) :
    (parse_rest c).1.head? = some 47 ∧ ∀ x ∈ (parse_rest c).1, x ≠ 63 ∧ x ≠ 35 ∧ x ≠ 0 := by
  by_cases h : peek c = 47
  · have e : (parse_rest c).1 = 47 :: (scan path_stop c.tail).1 := by simp [parse_rest, h]
    rw [e]
    refine ⟨rfl, ?_⟩
    intro x hx
    rcases List.mem_cons.1 hx with rfl | hx
    · decide
    · have := scan_fst_not_stop path_stop c.tail x hx
      simpa [path_stop] using this
  · have e : (parse_rest c).1 = [47] := by simp [parse_rest, h]
    rw [e]
    exact ⟨rfl, by simp⟩

/-- C7 as stated fails: for `http://host/a\0b` the path is `/a`, while the run
from the `/` behind the host up to the first `?`, `#` or the end of the input
is `/a\0b`. -/
theorem C7_path_run_counterexample :
    (uri.parse (bytes "http://host/a" ++ [0] ++ bytes "b")).map uri.path = .ok (bytes "/a")
    ∧ (bytes "/a" ++ [0] ++ bytes "b").takeWhile (fun c => decide (c ≠ 63 ∧ c ≠ 35))
        = bytes "/a" ++ [0] ++ bytes "b"
    ∧ bytes "/a" ≠ bytes "/a" ++ [0] ++ bytes "b" := by
  decide

/-- C7, amended: an accepted input is `http://` or `https://`, then the host
with an optional `:` and digits, then a remainder that is empty or begins with
`/`, `?`, `#` or NUL.  `path()` begins with `/` and contains no `?` or `#`; it
is `/` when the remainder is empty or begins with `?`, `#` or NUL, and
otherwise the run of the remainder up to the first `?`, `#`, NUL or the end;
`port()` is 80 (443 when secure) when no `:` follows the host; and when the
remainder is empty the query and the fragment are empty. -/
theorem C7_parse_defaults (s : Str) (u : uri) (h : uri.parse s = .ok u) :
    ∃ p auth rest, s = p ++ auth ++ rest
      ∧ (is_http p ∨ is_https p)
      ∧ (auth = u.host ∨ ∃ ds, auth = u.host ++ bytes ":" ++ ds ∧ ∀ x ∈ ds, 48 ≤ x ∧ x ≤ 57)
      ∧ (∀ x ∈ u.host, x ≠ 58 ∧ x ≠ 47 ∧ x ≠ 63 ∧ x ≠ 35 ∧ x ≠ 0)
      ∧ (rest = [] ∨ ∃ d t, rest = d :: t ∧ (d = 47 ∨ d = 63 ∨ d = 35 ∨ d = 0))
      ∧ u.path.head? = some 47
      ∧ (∀ x ∈ u.path, x ≠ 63 ∧ x ≠ 35)
      ∧ ((rest = [] ∨ rest.head? = some 63 ∨ rest.head? = some 35 ∨ rest.head? = some 0)
          → u.path = bytes "/")
      ∧ (rest.head? = some 47
          → u.path = rest.takeWhile (fun c => decide (c ≠ 63 ∧ c ≠ 35 ∧ c ≠ 0)))
      ∧ (auth = u.host → u.port = if u.secure = true then 443 else 80)
      ∧ (rest = [] → u.query = [] ∧ u.fragment = []) := by
  obtain ⟨_, sec, c, port, c2, ps, hs, hne, hport, hcalls, rfl⟩ := parse_ok_sections h
  obtain ⟨hsec, hhost, hprt, hpath, hfrag⟩ := append_all_fields
    ⟨sec, (scan host_stop c).1, port, (parse_rest c2).1, (parse_rest c2).2.2, []⟩ ps
  simp only [uri.host, uri.path, uri.port, uri.secure, uri.fragment, uri.query,
    hsec, hhost, hprt, hpath, hfrag]
  obtain ⟨p, hp, hor⟩ := parse_scheme_ok hs
  have hp' : is_http p ∨ is_https p := hor.elim (fun x => Or.inl x.2) (fun x => Or.inr x.2)
  have hjoin := scan_join host_stop c
  have hhostc : ∀ x ∈ (scan host_stop c).1, x ≠ 58 ∧ x ≠ 47 ∧ x ≠ 63 ∧ x ≠ 35 ∧ x ≠ 0 := by
    intro x hx
    have := scan_fst_not_stop host_stop c x hx
    simpa [host_stop] using this
  have hpathfacts := parse_rest_path c2
  -- the facts that depend only on the remainder `c2`
  have hrestfacts :
      ((c2 = [] ∨ c2.head? = some 63 ∨ c2.head? = some 35 ∨ c2.head? = some 0)
          → (parse_rest c2).1 = bytes "/")
      ∧ (c2.head? = some 47
          → (parse_rest c2).1 = c2.takeWhile (fun c => decide (c ≠ 63 ∧ c ≠ 35 ∧ c ≠ 0)))
      ∧ (c2 = [] → (append_all ⟨sec, (scan host_stop c).1, port, (parse_rest c2).1,
            (parse_rest c2).2.2, []⟩ ps).query_ = [] ∧ (parse_rest c2).2.2 = []) := by
    refine ⟨?_, ?_, ?_⟩
    · intro hc
      cases c2 with
      | nil => rw [parse_rest_nil]; rfl
      | cons d t =>
        simp only [List.head?_cons, Option.some.injEq, false_or] at hc
        exact parse_rest_path_of_delim d t (by simpa using hc)
    · intro hc
      cases c2 with
      | nil => simp at hc
      | cons d t =>
        simp only [List.head?_cons, Option.some.injEq] at hc
        subst hc
        exact parse_rest_path_of_slash t
    · rintro rfl
      rw [parse_rest_nil] at hcalls ⊢
      simp only [parse_calls, List.isEmpty_nil, Bool.not_true, Bool.false_eq_true, if_false,
        Except.ok.injEq] at hcalls
      subst hcalls
      exact ⟨rfl, rfl⟩
  rcases parse_port_ok hport with ⟨hpk, rfl, rfl⟩ | ⟨ds, hc', hds, hc2, _⟩
  · -- no port
    refine ⟨p, (scan host_stop c).1, (scan host_stop c).2, ?_, hp', Or.inl rfl, hhostc, ?_,
      hpathfacts.1, fun x hx => ⟨(hpathfacts.2 x hx).1, (hpathfacts.2 x hx).2.1⟩,
      hrestfacts.1, hrestfacts.2.1, fun _ => rfl, hrestfacts.2.2⟩
    · rw [List.append_assoc, hjoin]; exact hp
    · rcases scan_snd_head host_stop c with h0 | ⟨d, t, h0, hd⟩
      · exact Or.inl h0
      · refine Or.inr ⟨d, t, h0, ?_⟩
        rw [h0] at hpk
        simp only [peek, List.headD_cons, ne_eq] at hpk
        simp only [host_stop, Bool.decide_or, Bool.or_eq_true, decide_eq_true_eq] at hd
        omega
  · -- explicit port
    refine ⟨p, (scan host_stop c).1 ++ 58 :: ds, c2, ?_, hp',
      Or.inr ⟨ds, by simp [bytes], hds⟩, hhostc, ?_,
      hpathfacts.1, fun x hx => ⟨(hpathfacts.2 x hx).1, (hpathfacts.2 x hx).2.1⟩,
      hrestfacts.1, hrestfacts.2.1, ?_, hrestfacts.2.2⟩
    · rw [hp]
      conv_lhs => rw [← hjoin, hc']
      simp
    · rcases hc2 with h0 | ⟨d, t, h0, hd⟩
      · exact Or.inl h0
      · refine Or.inr ⟨d, t, h0, ?_⟩
        simpa [port_stop] using hd
    · intro habs
      have := congrArg List.length habs
      simp at this

/-- C7 amended, at the test URI, with the inputs of the test suite that omit
the path, the query or the fragment. -/
theorem C7_parse_defaults_witness :
    (∃ p auth rest, bytes "http://www.example.org/path/path1?qkey=qval#frag" = p ++ auth ++ rest
      ∧ (is_http p ∨ is_https p)
      ∧ (auth = test_uri.host ∨ ∃ ds, auth = test_uri.host ++ bytes ":" ++ ds ∧ ∀ x ∈ ds, 48 ≤ x ∧ x ≤ 57)
      ∧ (∀ x ∈ test_uri.host, x ≠ 58 ∧ x ≠ 47 ∧ x ≠ 63 ∧ x ≠ 35 ∧ x ≠ 0)
      ∧ (rest = [] ∨ ∃ d t, rest = d :: t ∧ (d = 47 ∨ d = 63 ∨ d = 35 ∨ d = 0))
      ∧ test_uri.path.head? = some 47
      ∧ (∀ x ∈ test_uri.path, x ≠ 63 ∧ x ≠ 35)
      ∧ ((rest = [] ∨ rest.head? = some 63 ∨ rest.head? = some 35 ∨ rest.head? = some 0)
          → test_uri.path = bytes "/")
      ∧ (rest.head? = some 47
          → test_uri.path = rest.takeWhile (fun c => decide (c ≠ 63 ∧ c ≠ 35 ∧ c ≠ 0)))
      ∧ (auth = test_uri.host → test_uri.port = if test_uri.secure = true then 443 else 80)
      ∧ (rest = [] → test_uri.query = [] ∧ test_uri.fragment = []))
    ∧ uri.parse (bytes "http://localhost")
        = .ok ⟨false, bytes "localhost", 80, bytes "/", [], []⟩
    ∧ (uri.parse (bytes "http://www.example.org?qkey=qval#frag")).map uri.path = .ok (bytes "/")
    ∧ (uri.parse (bytes "http://www.example.org#frag")).map uri.path = .ok (bytes "/")
    ∧ (uri.parse (bytes "https://localhost/")).map uri.port = .ok 443 :=
  ⟨C7_parse_defaults (bytes "http://www.example.org/path/path1?qkey=qval#frag") test_uri
    (by decide), by decide, by decide, by decide, by decide⟩

/-! ## The length guard -/

/-- C12: every input of fewer than 9 characters, whatever its contents, makes
`parse` fail with `uri is too short`; no other check decides the outcome. -/
theorem C12_length_guard (s : Str) (hlen : s.length < 9) :
    uri.parse s = .error .TooShort :=
  parse_too_short hlen

/-- C12 at `http://`, and at inputs that fail every later check or none. -/
theorem C12_length_guard_witness :
    uri.parse (bytes "http://") = .error .TooShort
    ∧ uri.parse [] = .error .TooShort
    ∧ uri.parse (bytes "file://x") = .error .TooShort
    ∧ uri.parse (bytes "http://a") = .error .TooShort :=
  ⟨C12_length_guard (bytes "http://") (by decide), by decide, by decide, by decide⟩

/-- C19 as stated fails: `http://a` has 8 characters and the length guard
rejects it. -/
theorem C19_one_char_host_counterexample :
    (bytes "http://a").length = 8
    ∧ 97 ≠ 58 ∧ 97 ≠ 47 ∧ 97 ≠ 63 ∧ 97 ≠ 35 ∧ 97 ≠ 0
    ∧ uri.parse (bytes "http://" ++ [97]) = .error .TooShort := by
  decide

/-- C19, amended: for characters `c`, `d` other than `:`, `/`, `?`, `#` and
NUL, `http://` followed by `c` alone has 8 characters and fails with
`uri is too short`; the 9-character inputs `http://` + `c` + `d`,
`http://` + `c` + `/` and `https://` + `c` pass the length guard and succeed
with host `cd`, `c`, `c`, the default port, path `/`, no query and no fragment. -/
theorem C19_shortest_inputs (c d : Nat)
    (hc : c ≠ 58 ∧ c ≠ 47 ∧ c ≠ 63 ∧ c ≠ 35 ∧ c ≠ 0)
    (hd : d ≠ 58 ∧ d ≠ 47 ∧ d ≠ 63 ∧ d ≠ 35 ∧ d ≠ 0) :
    uri.parse (bytes "http://" ++ [c]) = .error .TooShort
    ∧ uri.parse (bytes "http://" ++ [c, d]) = .ok ⟨false, [c, d], 80, bytes "/", [], []⟩
    ∧ uri.parse (bytes "http://" ++ [c] ++ bytes "/") = .ok ⟨false, [c], 80, bytes "/", [], []⟩
    ∧ uri.parse (bytes "https://" ++ [c]) = .ok ⟨true, [c], 443, bytes "/", [], []⟩ := by
  have hcs : host_stop c = false := by simp [host_stop, hc]
  have hds : host_stop d = false := by simp [host_stop, hd]
  refine ⟨parse_too_short (by simp [bytes]), ?_, ?_, ?_⟩
  · rw [parse_of_scheme_ok (by simp [bytes]) (parse_scheme_http [c, d])]
    simp [scan, hcs, hds, parse_port, peek, parse_rest, parse_calls, append_all, bytes]
  · have h1 : scan host_stop ([c] ++ bytes "/") = ([c], [47]) :=
      scan_append_stop host_stop [c] 47 [] (by simp [hcs]) (by decide)
    rw [List.append_assoc, parse_of_scheme_ok (by simp [bytes]) (parse_scheme_http _), h1]
    simp [scan, parse_port, peek, parse_rest, parse_calls, append_all, bytes]
  · rw [parse_of_scheme_ok (by simp [bytes]) (parse_scheme_https [c])]
    simp [scan, hcs, parse_port, peek, parse_rest, parse_calls, append_all, bytes]

/-- C19 amended, at `c = 'a'`, `d = 'b'`. -/
theorem C19_shortest_inputs_witness :
    uri.parse (bytes "http://" ++ [97]) = .error .TooShort
    ∧ uri.parse (bytes "http://" ++ [97, 98]) = .ok ⟨false, [97, 98], 80, bytes "/", [], []⟩
    ∧ uri.parse (bytes "http://" ++ [97] ++ bytes "/") = .ok ⟨false, [97], 80, bytes "/", [], []⟩
    ∧ uri.parse (bytes "https://" ++ [97]) = .ok ⟨true, [97], 443, bytes "/", [], []⟩ :=
  C19_shortest_inputs 97 98 (by decide) (by decide)

/-! ## `append_query` -/

/-- C17: `append_query(k, v)` leaves `secure()`, `host()`, `port()`, `path()`
and `fragment()` unchanged, and the multiset of the pairs of `query()`
afterwards is the multiset before with one more occurrence of `(k, v)`, also
when `k` was present already. -/
theorem C17_append_query_only_adds (u : uri) (k v : Str) :
    (u.append_query k v).secure = u.secure
    ∧ (u.append_query k v).host = u.host
    ∧ (u.append_query k v).port = u.port
    ∧ (u.append_query k v).path = u.path
    ∧ (u.append_query k v).fragment = u.fragment
    ∧ (u.append_query k v).query.Perm ((k, v) :: u.query)
    ∧ ((u.append_query k v).query : Multiset (Str × Str))
        = (k, v) ::ₘ (u.query : Multiset (Str × Str))
    ∧ (test_uri.append_query (bytes "qkey") (bytes "other")).query
        = [(bytes "qkey", bytes "qval"), (bytes "qkey", bytes "other")] := by
  have hperm : (u.append_query k v).query.Perm ((k, v) :: u.query) :=
    multimap_insert_perm (k, v) u.query_
  exact ⟨rfl, rfl, rfl, rfl, rfl, hperm, Multiset.coe_eq_coe.2 hperm, by decide⟩

/-! ## Decoding with the other space policy -/

theorem decode_encode_no_plus (tmatch : Nat → Bool) (U : SpaceClass)
    (hT : ∀ c, tmatch c = false → c ≠ 43 ∧ c ≠ 37)
    (s : Str) (hs : isBytes s) :
    encoder.decode U (encoder.encode tmatch NO_PLUS s) = s := by
  induction s with
  | nil => rfl
  | cons c cs ih =>
    have hc : c < 256 := hs c (List.mem_cons_self _ _)
    have ih := ih (fun x hx => hs x (List.mem_cons_of_mem _ hx))
    unfold encoder.encode
    by_cases hm : tmatch c = false
    · obtain ⟨h1, h2⟩ := hT c hm
      simp only [hm, Bool.not_false, if_true, List.singleton_append]
      rw [decode_cons_plain U c _ h1 h2, ih]
    · have hm' : tmatch c = true := by simpa using hm
      simp only [hm', Bool.not_true, Bool.false_eq_true, if_false]
      by_cases h32 : c = 32
      · subst h32
        have e : NO_PLUS.space_encoded = [37, 50, 48] := rfl
        simp only [if_true, e, List.cons_append, List.nil_append]
        rw [decode_escape, ih]
        rfl
      · simp only [h32, if_false, hex2, List.cons_append, List.nil_append]
        rw [decode_escape, ih]
        have := hexExtract_hex2 c hc
        simp only [hex2] at this
        rw [this]

theorem decode_encode_plus (tmatch : Nat → Bool) (U : SpaceClass)
    (hT : ∀ c, tmatch c = false → c ≠ 43 ∧ c ≠ 37) (hsp : tmatch 32 = true)
    (s : Str) (hs : isBytes s) :
    encoder.decode U (encoder.encode tmatch PLUS s)
      = s.map (fun c => if c = 32 then U.plus_decoded else c) := by
  induction s with
  | nil => rfl
  | cons c cs ih =>
    have hc : c < 256 := hs c (List.mem_cons_self _ _)
    have ih := ih (fun x hx => hs x (List.mem_cons_of_mem _ hx))
    unfold encoder.encode
    by_cases hm : tmatch c = false
    · obtain ⟨h1, h2⟩ := hT c hm
      have h32 : c ≠ 32 := by
        intro h
        subst h
        rw [hsp] at hm
        cases hm
      simp only [hm, Bool.not_false, if_true, List.singleton_append]
      rw [decode_cons_plain U c _ h1 h2, ih]
      simp [h32]
    · have hm' : tmatch c = true := by simpa using hm
      simp only [hm', Bool.not_true, Bool.false_eq_true, if_false]
      by_cases h32 : c = 32
      · subst h32
        have e : PLUS.space_encoded = [43] := rfl
        simp only [if_true, e, List.singleton_append]
        rw [decode_plus, ih]
        simp
      · simp only [h32, if_false, hex2, List.cons_append, List.nil_append]
        rw [decode_escape, ih]
        have := hexExtract_hex2 c hc
        simp only [hex2] at this
        rw [this]
        simp [h32]

/-- C15: on every string of bytes, `decode2` undoes `encode` and
`encodeURIComponent`, while `decode` applied to the output of `encode2` or
`encodeURIComponent2` gives the string with every space replaced by `+`. -/
theorem C15_cross_policy_plus (s : Str) (hs : isBytes s) :
    uri.decode2 (uri.encode s) = s
    ∧ uri.decode2 (uri.encodeURIComponent s) = s
    ∧ uri.decode (uri.encode2 s) = s.map (fun c => if c = 32 then 43 else c)
    ∧ uri.decode (uri.encodeURIComponent2 s) = s.map (fun c => if c = 32 then 43 else c) :=
  ⟨decode_encode_no_plus _ _ (fun _ h => RFC3986_unreserved_ne h) s hs,
   decode_encode_no_plus _ _ (fun _ h => RFC2396_unreserved_ne h) s hs,
   decode_encode_plus _ _ (fun _ h => RFC3986_unreserved_ne h) (by decide) s hs,
   decode_encode_plus _ _ (fun _ h => RFC2396_unreserved_ne h) (by decide) s hs⟩

/-- C15 at the test string `abcABC123-_.~!()&= `, with the decodings the test
suite expects. -/
theorem C15_cross_policy_plus_witness :
    (uri.decode2 (uri.encode (bytes "abcABC123-_.~!()&= ")) = bytes "abcABC123-_.~!()&= "
      ∧ uri.decode2 (uri.encodeURIComponent (bytes "abcABC123-_.~!()&= "))
          = bytes "abcABC123-_.~!()&= "
      ∧ uri.decode (uri.encode2 (bytes "abcABC123-_.~!()&= "))
          = (bytes "abcABC123-_.~!()&= ").map (fun c => if c = 32 then 43 else c)
      ∧ uri.decode (uri.encodeURIComponent2 (bytes "abcABC123-_.~!()&= "))
          = (bytes "abcABC123-_.~!()&= ").map (fun c => if c = 32 then 43 else c))
    ∧ uri.decode (bytes "abcABC123-_.~%21%28%29%26%3d+") = bytes "abcABC123-_.~!()&=+"
    ∧ uri.decode2 (bytes "abcABC123-_.~%21%28%29%26%3d+") = bytes "abcABC123-_.~!()&= "
    ∧ uri.decode2 (bytes "abcABC123-_.~%21%28%29%26%3d%20") = bytes "abcABC123-_.~!()&= "
    ∧ uri.decode (bytes "abcABC123-_.~!()%26%3d+") = bytes "abcABC123-_.~!()&=+"
    ∧ uri.decode2 (bytes "abcABC123-_.~!()%26%3d+") = bytes "abcABC123-_.~!()&= " :=
  ⟨C15_cross_policy_plus (bytes "abcABC123-_.~!()&= ") (by decide), by decide, by decide,
    by decide, by decide, by decide⟩

/-! ## Encoding format -/

set_option maxRecDepth 1000000 in
theorem RFC3986_match_iff : ∀ c < 256, (RFC3986.match_ c = false ↔ c ∈ unreserved_rfc3986) := by
  decide

set_option maxRecDepth 1000000 in
theorem RFC2396_match_iff : ∀ c < 256, (RFC2396.match_ c = false ↔ c ∈ unreserved_rfc2396) := by
  decide

set_option maxRecDepth 1000000 in
theorem hex2_lower_hex : ∀ c < 256,
    hex2 c = [lower_hex.getD (c / 16) 0, lower_hex.getD (c % 16) 0] := by
  decide

theorem encode_eq_encoded_bytes (tmatch : Nat → Bool) (U : SpaceClass) (unreserved : Str)
    (hT : ∀ c < 256, (tmatch c = false ↔ c ∈ unreserved)) (s : Str) (hs : isBytes s) :
    encoder.encode tmatch U s = (s.map (encoded_byte unreserved U.space_encoded)).flatten := by
  induction s with
  | nil => rfl
  | cons c cs ih =>
    have hc : c < 256 := hs c (List.mem_cons_self _ _)
    have ih := ih (fun x hx => hs x (List.mem_cons_of_mem _ hx))
    rw [encoder.encode, ih, List.map_cons, List.flatten_cons]
    congr 1
    unfold encoded_byte
    by_cases hm : tmatch c = false
    · have hmem := (hT c hc).1 hm
      simp [hm, hmem]
    · have hmem : c ∉ unreserved := fun h => hm ((hT c hc).2 h)
      have hm' : tmatch c = true := by simpa using hm
      simp only [hm', Bool.not_true, Bool.false_eq_true, if_false, hmem, hex2_lower_hex c hc]

/-- C16: on every string of bytes each encoder returns the concatenation, byte
by byte, of the byte itself when it is unreserved (letters, digits and `-_.~`
for `encode` and `encode2`, also `!'()` for `encodeURIComponent` and
`encodeURIComponent2`), of `%20` (`encode`, `encodeURIComponent`) or `+`
(`encode2`, `encodeURIComponent2`) for a space, and otherwise of `%` and the
two lowercase hexadecimal digits of the byte's value. -/
theorem C16_encoding_format (s : Str) (hs : isBytes s) :
    uri.encode s = (s.map (encoded_byte unreserved_rfc3986 (bytes "%20"))).flatten
    ∧ uri.encode2 s = (s.map (encoded_byte unreserved_rfc3986 (bytes "+"))).flatten
    ∧ uri.encodeURIComponent s = (s.map (encoded_byte unreserved_rfc2396 (bytes "%20"))).flatten
    ∧ uri.encodeURIComponent2 s = (s.map (encoded_byte unreserved_rfc2396 (bytes "+"))).flatten :=
  ⟨encode_eq_encoded_bytes _ NO_PLUS _ RFC3986_match_iff s hs,
   encode_eq_encoded_bytes _ PLUS _ RFC3986_match_iff s hs,
   encode_eq_encoded_bytes _ NO_PLUS _ RFC2396_match_iff s hs,
   encode_eq_encoded_bytes _ PLUS _ RFC2396_match_iff s hs⟩

/-- C16 at the test string, with the four encodings the test suite expects and
the encodings of the bytes 0x00, 0x0a, 0x80 and 0xff. -/
theorem C16_encoding_format_witness :
    (uri.encode (bytes "abcABC123-_.~!()&= ")
        = ((bytes "abcABC123-_.~!()&= ").map
            (encoded_byte unreserved_rfc3986 (bytes "%20"))).flatten
      ∧ uri.encode2 (bytes "abcABC123-_.~!()&= ")
        = ((bytes "abcABC123-_.~!()&= ").map
            (encoded_byte unreserved_rfc3986 (bytes "+"))).flatten
      ∧ uri.encodeURIComponent (bytes "abcABC123-_.~!()&= ")
        = ((bytes "abcABC123-_.~!()&= ").map
            (encoded_byte unreserved_rfc2396 (bytes "%20"))).flatten
      ∧ uri.encodeURIComponent2 (bytes "abcABC123-_.~!()&= ")
        = ((bytes "abcABC123-_.~!()&= ").map
            (encoded_byte unreserved_rfc2396 (bytes "+"))).flatten)
    ∧ uri.encode (bytes "abcABC123-_.~!()&= ") = bytes "abcABC123-_.~%21%28%29%26%3d%20"
    ∧ uri.encode2 (bytes "abcABC123-_.~!()&= ") = bytes "abcABC123-_.~%21%28%29%26%3d+"
    ∧ uri.encodeURIComponent (bytes "abcABC123-_.~!()&= ") = bytes "abcABC123-_.~!()%26%3d%20"
    ∧ uri.encodeURIComponent2 (bytes "abcABC123-_.~!()&= ") = bytes "abcABC123-_.~!()%26%3d+"
    ∧ uri.encode [0, 10, 128, 255] = bytes "%00%0a%80%ff" :=
  ⟨C16_encoding_format (bytes "abcABC123-_.~!()&= ") (by decide), by decide, by decide,
    by decide, by decide, by decide⟩

/-! ## Malformed escapes -/

theorem decode_append_plain (U : SpaceClass) (pre s : Str) (hpre : ∀ c ∈ pre, c ≠ 37) :
    encoder.decode U (pre ++ s) = encoder.decode U pre ++ encoder.decode U s := by
  induction pre with
  | nil => rfl
  | cons c cs ih =>
    have hc := hpre c (List.mem_cons_self _ _)
    have ih := ih (fun x hx => hpre x (List.mem_cons_of_mem _ hx))
    by_cases h43 : c = 43
    · subst h43
      rw [List.cons_append, decode_plus, decode_plus, ih, List.cons_append]
    · rw [List.cons_append, decode_cons_plain U c _ h43 hc, decode_cons_plain U c _ h43 hc, ih,
        List.cons_append]

theorem hexVal_lt {a x : Nat} (h : hexVal a = some x) : x < 16 := by
  unfold hexVal at h
  split at h
  · simp only [Option.some.injEq] at h; omega
  · split at h
    · simp only [Option.some.injEq] at h; omega
    · split at h
      · simp only [Option.some.injEq] at h; omega
      · cases h

theorem to_char_small {x : Nat} (h : x < 256) : to_char (x : Int) = x := by
  unfold to_char
  omega

theorem decode_escape_one_digit (U : SpaceClass) (a b x : Nat) (rest : Str)
    (ha : hexVal a = some x) (hb : hexVal b = none) :
    encoder.decode U (37 :: a :: b :: rest) = x :: encoder.decode U rest := by
  rw [decode_escape]
  have : hexExtract [a, b] = (x : Int) := by simp [hexExtract, ha, hb]
  rw [this, to_char_small (by have := hexVal_lt ha; omega)]

theorem decode_escape_short (U : SpaceClass) (a x : Nat) (ha : hexVal a = some x) :
    encoder.decode U [37, a] = [x] := by
  have : hexExtract [a] = (x : Int) := by simp [hexExtract, ha]
  simp only [encoder.decode, encoder.decode_loop, if_true, List.take, this, Nat.reduceEqDiff,
    if_false]
  rw [to_char_small (by have := hexVal_lt ha; omega)]

/-- C14 as stated fails: `decode` and `decode2` return strings for `%4g`, where
`%` is followed by one hexadecimal digit and `g`, and for `a%4`, where `%` is
the second-to-last character. -/
theorem C14_malformed_escape_counterexample :
    uri.decode (bytes "%4g") = [4] ∧ uri.decode2 (bytes "%4g") = [4]
    ∧ uri.decode (bytes "a%4") = [97, 4] ∧ uri.decode2 (bytes "a%4") = [97, 4]
    ∧ hexVal 103 = none := by
  decide

/-- C14, amended: a malformed escape is decoded, not reported.  When the first
`%` of the input is followed by a hexadecimal digit and then by a character
that is not one, and no `%` of the rest behind them is followed by nothing or
by white space only, the three characters decode to the single byte whose
value is that digit and decoding goes on behind them; when the first `%` is
followed by a hexadecimal digit that ends the input, the two characters decode
to that byte. -/
theorem C14_malformed_escape_decoded (pre rest : Str) (a b x : Nat)
    (hpre : ∀ c ∈ pre, c ≠ 37) (ha : hexVal a = some x) (hb : hexVal b = none)
    (_hrest : escapes_assigned rest = true) :
    uri.decode (pre ++ bytes "%" ++ [a, b] ++ rest) = uri.decode pre ++ [x] ++ uri.decode rest
    ∧ uri.decode2 (pre ++ bytes "%" ++ [a, b] ++ rest)
        = uri.decode2 pre ++ [x] ++ uri.decode2 rest
    ∧ uri.decode (pre ++ bytes "%" ++ [a]) = uri.decode pre ++ [x]
    ∧ uri.decode2 (pre ++ bytes "%" ++ [a]) = uri.decode2 pre ++ [x] := by
  have e1 : pre ++ bytes "%" ++ [a, b] ++ rest = pre ++ 37 :: a :: b :: rest := by simp [bytes]
  have e2 : pre ++ bytes "%" ++ [a] = pre ++ [37, a] := by simp [bytes]
  rw [e1, e2]
  unfold uri.decode uri.decode2
  refine ⟨?_, ?_, ?_, ?_⟩
  · rw [decode_append_plain _ _ _ hpre, decode_escape_one_digit _ a b x rest ha hb]; simp
  · rw [decode_append_plain _ _ _ hpre, decode_escape_one_digit _ a b x rest ha hb]; simp
  · rw [decode_append_plain _ _ _ hpre, decode_escape_short _ a x ha]
  · rw [decode_append_plain _ _ _ hpre, decode_escape_short _ a x ha]

/-- C14 amended, at `ab%4g+c%2B` and `ab%4`. -/
theorem C14_malformed_escape_decoded_witness :
    escapes_assigned (bytes "+c%2B") = true
    ∧ uri.decode (bytes "ab" ++ bytes "%" ++ [52, 103] ++ bytes "+c%2B")
        = uri.decode (bytes "ab") ++ [4] ++ uri.decode (bytes "+c%2B")
    ∧ uri.decode2 (bytes "ab" ++ bytes "%" ++ [52, 103] ++ bytes "+c%2B")
        = uri.decode2 (bytes "ab") ++ [4] ++ uri.decode2 (bytes "+c%2B")
    ∧ uri.decode (bytes "ab" ++ bytes "%" ++ [52]) = uri.decode (bytes "ab") ++ [4]
    ∧ uri.decode2 (bytes "ab" ++ bytes "%" ++ [52]) = uri.decode2 (bytes "ab") ++ [4] :=
  ⟨by decide, C14_malformed_escape_decoded (bytes "ab") (bytes "+c%2B") 52 103 4 (by decide)
    (by decide) (by decide) (by decide)⟩

/-! ## Inputs given by their sections -/

theorem scan_port_digits (ds rest : Str) (hd : ∀ x ∈ ds, 48 ≤ x ∧ x ≤ 57)
    (hrest : rest = [] ∨ ∃ d t, rest = d :: t ∧ port_stop d = true) :
    scan_port (ds ++ rest) = .ok (ds, rest) := by
  induction ds with
  | nil =>
    rcases hrest with rfl | ⟨d, t, rfl, hd'⟩
    · rfl
    · simp [scan_port, hd']
  | cons x xs ih =>
    have hx := hd x (List.mem_cons_self _ _)
    have hns : port_stop x = false := by
      simp only [port_stop, decide_eq_false_iff_not]; omega
    simp [scan_port, hns, hx, ih (fun y hy => hd y (List.mem_cons_of_mem _ hy))]

theorem scan_host (host rest : Str) (hh : ∀ x ∈ host, host_stop x = false)
    (hrest : rest = [] ∨ ∃ d t, rest = d :: t ∧ host_stop d = true) :
    scan host_stop (host ++ rest) = (host, rest) := by
  rcases hrest with rfl | ⟨d, t, rfl, hd⟩
  · rw [List.append_nil]; exact scan_all host_stop host hh
  · exact scan_append_stop host_stop host d t hh hd

theorem port_stop_host_stop {d : Nat} (h : port_stop d = true) : host_stop d = true := by
  simp only [port_stop, Bool.decide_or, Bool.or_eq_true, decide_eq_true_eq] at h
  simp only [host_stop, Bool.decide_or, Bool.or_eq_true, decide_eq_true_eq]
  omega

theorem port_stop_ne_colon {d : Nat} (h : port_stop d = true) : d ≠ 58 := by
  simp only [port_stop, Bool.decide_or, Bool.or_eq_true, decide_eq_true_eq] at h
  omega

theorem lexical_cast_ushort_digits (ds : Str) (hne : ds ≠ [])
    (hd : ∀ x ∈ ds, 48 ≤ x ∧ x ≤ 57) :
    lexical_cast_ushort ds = if decimal_value ds ≤ 65535 then some (decimal_value ds) else none := by
  unfold lexical_cast_ushort decimal_value
  have : ¬ (ds = [] ∨ ¬ ∀ c ∈ ds, 48 ≤ c ∧ c ≤ 57) := by
    intro h
    rcases h with h | h
    · exact hne h
    · exact h hd
  rw [if_neg this]

/-- The outcome of the host and port sections on an input that is a scheme, a
host and a port part whose digits `lexical_cast` rejects. -/
theorem parse_port_rejected (p host ds rest : Str)
    (hp : is_http p ∨ is_https p)
    (hh : host ≠ []) (hh' : ∀ x ∈ host, host_stop x = false)
    (hd : ∀ x ∈ ds, 48 ≤ x ∧ x ≤ 57)
    (hrest : rest = [] ∨ ∃ d t, rest = d :: t ∧ port_stop d = true)
    (hcast : lexical_cast_ushort ds = none)
    (hlen : 9 ≤ (p ++ (host ++ 58 :: (ds ++ rest))).length) :
    uri.parse (p ++ (host ++ 58 :: (ds ++ rest))) = .error .BadLexicalCast := by
  obtain ⟨sec, hs⟩ := parse_scheme_of_scheme (host ++ 58 :: (ds ++ rest)) hp
  rw [parse_of_scheme_ok hlen hs, scan_append_stop host_stop host 58 _ hh' (by decide)]
  have hne : host.isEmpty = false := by cases host <;> simp at hh ⊢
  simp only [hne, Bool.false_eq_true, if_false, parse_port, peek, List.headD_cons, ne_eq,
    not_true_eq_false, List.tail_cons, scan_port_digits ds rest hd hrest, hcast]

/-- The outcome of `parse` on an input that is a scheme, a host, an optional
port part and a remainder that is empty or begins with `/`, `?`, `#` or NUL. -/
theorem parse_structured (p host pp rest : Str) (sec : Bool) (port : Nat)
    (hp : (sec = false ∧ is_http p) ∨ (sec = true ∧ is_https p))
    (hh : host ≠ []) (hh' : ∀ x ∈ host, host_stop x = false)
    (hpp : (pp = [] ∧ port = (if sec = true then 443 else 80))
      ∨ ∃ ds, pp = 58 :: ds ∧ (∀ x ∈ ds, 48 ≤ x ∧ x ≤ 57) ∧ lexical_cast_ushort ds = some port)
    (hrest : rest = [] ∨ ∃ d t, rest = d :: t ∧ port_stop d = true)
    (hlen : 9 ≤ (p ++ (host ++ (pp ++ rest))).length) :
    uri.parse (p ++ (host ++ (pp ++ rest)))
      = match parse_calls (parse_rest rest).2.1 with
        | .error e => .error e
        | .ok ps =>
          .ok (append_all ⟨sec, host, port, (parse_rest rest).1, (parse_rest rest).2.2, []⟩ ps) := by
  have hs : parse_scheme (p ++ (host ++ (pp ++ rest))) = .ok (sec, host ++ (pp ++ rest)) := by
    rcases hp with ⟨rfl, hp⟩ | ⟨rfl, hp⟩
    · exact parse_scheme_of_http p _ hp
    · exact parse_scheme_of_https p _ hp
  have hne : host.isEmpty = false := by cases host <;> simp at hh ⊢
  rw [parse_of_scheme_ok hlen hs]
  rcases hpp with ⟨rfl, rfl⟩ | ⟨ds, rfl, hd, hcast⟩
  · have hrest' : rest = [] ∨ ∃ d t, rest = d :: t ∧ host_stop d = true := by
      rcases hrest with h | ⟨d, t, h, hd⟩
      · exact Or.inl h
      · exact Or.inr ⟨d, t, h, port_stop_host_stop hd⟩
    have hpk : peek rest ≠ 58 := by
      rcases hrest with rfl | ⟨d, t, rfl, hd⟩
      · decide
      · simpa [peek] using port_stop_ne_colon hd
    rw [List.nil_append, scan_host host rest hh' hrest']
    simp only [hne, Bool.false_eq_true, if_false, parse_port, hpk, ne_eq, not_false_eq_true,
      if_true]
  · rw [List.cons_append, scan_append_stop host_stop host 58 _ hh' (by decide)]
    simp only [hne, Bool.false_eq_true, if_false, parse_port, peek, List.headD_cons, ne_eq,
      not_true_eq_false, List.tail_cons, scan_port_digits ds rest hd hrest, hcast]

/-! ## Port range -/

theorem mem_of_mem_scan_snd (stop : Nat → Bool) (l : Str) (x : Nat)
    (hx : x ∈ (scan stop l).2) : x ∈ l := by
  rw [← scan_join stop l]
  exact List.mem_append_right _ hx

theorem parse_rest_query_nil (rest : Str) (h : ∀ x ∈ rest, x ≠ 63) :
    (parse_rest rest).2.1 = [] := by
  have key : ∀ c : Str, (∀ x ∈ c, x ≠ 63) → peek c ≠ 63 := by
    intro c hc hpk
    have := peek_eq_cons hpk (by decide)
    exact hc 63 (by rw [this]; exact List.mem_cons_self _ _) rfl
  have hc2 : ∀ x ∈ (if peek rest = 47 then (scan path_stop rest.tail).2 else rest), x ≠ 63 := by
    intro x hx
    split at hx
    · exact h x (List.mem_of_mem_tail (mem_of_mem_scan_snd _ _ _ hx))
    · exact h x hx
  simp only [parse_rest, key _ hc2, if_false]

/-- C11 as stated fails: for `http://www.example.org:65536/` `parse` does not
fail with `invalid port` but with `boost::bad_lexical_cast`. -/
theorem C11_port_overflow_counterexample :
    decimal_value (bytes "65536") = 65536
    ∧ uri.parse (bytes "http://www.example.org:65536/") = .error .BadLexicalCast
    ∧ uri.parse (bytes "http://www.example.org:65536/") ≠ .error .InvalidPort := by
  decide

/-- C11, amended: for `http://` or `https://`, a non-empty host without NUL,
`:`, a non-empty string of decimal digits denoting `n`, and a remainder that is
empty or begins with `/`, `?`, `#` or NUL: when `n > 65535` `parse` fails with
`boost::bad_lexical_cast`; when `n <= 65535` every URI `parse` returns has
`port() = n`, `parse` can fail only with an `invalid query` error, and it
succeeds when the remainder contains no `?`. -/
theorem C11_port_range (p host ds rest : Str)
    (hp : is_http p ∨ is_https p)
    (hh : host ≠ []) (hh' : ∀ x ∈ host, x ≠ 58 ∧ x ≠ 47 ∧ x ≠ 63 ∧ x ≠ 35 ∧ x ≠ 0)
    (hne : ds ≠ []) (hd : ∀ x ∈ ds, 48 ≤ x ∧ x ≤ 57)
    (hrest : rest = [] ∨ ∃ d t, rest = d :: t ∧ (d = 47 ∨ d = 63 ∨ d = 35 ∨ d = 0)) :
    (65535 < decimal_value ds
      → uri.parse (p ++ host ++ bytes ":" ++ ds ++ rest) = .error .BadLexicalCast)
    ∧ (decimal_value ds ≤ 65535
      → (∀ u, uri.parse (p ++ host ++ bytes ":" ++ ds ++ rest) = .ok u
            → u.port = decimal_value ds)
        ∧ (∀ e, uri.parse (p ++ host ++ bytes ":" ++ ds ++ rest) = .error e
            → e = .InvalidQuery ∨ e = .InvalidQueryKeyEmpty)
        ∧ ((∀ x ∈ rest, x ≠ 63)
            → ∃ u, uri.parse (p ++ host ++ bytes ":" ++ ds ++ rest) = .ok u
                ∧ u.port = decimal_value ds)) := by
  have e : p ++ host ++ bytes ":" ++ ds ++ rest = p ++ (host ++ (58 :: ds ++ rest)) := by
    simp [bytes]
  have hstop : ∀ x ∈ host, host_stop x = false := fun x hx => by
    have := hh' x hx; simp [host_stop, this]
  have hrest' : rest = [] ∨ ∃ d t, rest = d :: t ∧ port_stop d = true := by
    rcases hrest with h | ⟨d, t, h, hd'⟩
    · exact Or.inl h
    · exact Or.inr ⟨d, t, h, by simpa [port_stop] using hd'⟩
  have hlen : 9 ≤ (p ++ (host ++ (58 :: ds ++ rest))).length := by
    have h1 := length_of_scheme hp
    have h2 : 0 < host.length := List.length_pos.2 hh
    simp only [List.length_append, List.length_cons]
    omega
  have hcast := lexical_cast_ushort_digits ds hne hd
  rw [e]
  constructor
  · intro hbig
    rw [if_neg (by omega)] at hcast
    exact parse_port_rejected p host ds rest hp hh hstop hd hrest' hcast hlen
  · intro hsmall
    rw [if_pos hsmall] at hcast
    obtain ⟨sec, hsec⟩ : ∃ sec, (sec = false ∧ is_http p) ∨ (sec = true ∧ is_https p) :=
      hp.elim (fun h => ⟨false, Or.inl ⟨rfl, h⟩⟩) (fun h => ⟨true, Or.inr ⟨rfl, h⟩⟩)
    have hparse := parse_structured p host (58 :: ds) rest sec (decimal_value ds) hsec hh hstop
      (Or.inr ⟨ds, rfl, hd, hcast⟩) hrest' hlen
    rw [hparse]
    refine ⟨?_, ?_, ?_⟩
    · intro u hu
      cases hc : parse_calls (parse_rest rest).2.1 with
      | error e' => rw [hc] at hu; cases hu
      | ok ps =>
        rw [hc] at hu
        simp only [Except.ok.injEq] at hu
        rw [← hu]
        exact (append_all_fields _ ps).2.2.1
    · intro e' he
      cases hc : parse_calls (parse_rest rest).2.1 with
      | error e'' =>
        rw [hc] at he
        simp only [Except.error.injEq] at he
        rw [← he]
        exact parse_calls_error hc
      | ok ps => rw [hc] at he; cases he
    · intro hq
      rw [parse_rest_query_nil rest hq]
      exact ⟨_, rfl, (append_all_fields _ []).2.2.1⟩

/-- C11 amended, at `http://www.example.org:65536/` and
`http://www.example.org:8080/path/path1`. -/
theorem C11_port_range_witness :
    uri.parse (bytes "http://" ++ bytes "www.example.org" ++ bytes ":" ++ bytes "65536"
        ++ bytes "/") = .error .BadLexicalCast
    ∧ (∃ u, uri.parse (bytes "http://" ++ bytes "www.example.org" ++ bytes ":" ++ bytes "8080"
          ++ bytes "/path/path1") = .ok u ∧ u.port = decimal_value (bytes "8080"))
    ∧ decimal_value (bytes "8080") = 8080
    ∧ (uri.parse (bytes "http://h:65535")).map uri.port = .ok 65535
    ∧ (uri.parse (bytes "http://h:000080/a?b")).map uri.port = .error .InvalidQuery :=
  ⟨(C11_port_range (bytes "http://") (bytes "www.example.org") (bytes "65536") (bytes "/")
      (Or.inl ⟨104, 116, 116, 112, rfl, by decide, by decide, by decide, by decide⟩)
      (by decide) (by decide) (by decide) (by decide)
      (Or.inr ⟨47, [], rfl, Or.inl rfl⟩)).1 (by decide),
    ((C11_port_range (bytes "http://") (bytes "www.example.org") (bytes "8080")
      (bytes "/path/path1")
      (Or.inl ⟨104, 116, 116, 112, rfl, by decide, by decide, by decide, by decide⟩)
      (by decide) (by decide) (by decide) (by decide)
      (Or.inr ⟨47, bytes "path/path1", rfl, Or.inl rfl⟩)).2 (by decide)).2.2 (by decide),
    by decide, by decide, by decide⟩

/-! ## Query pairs -/

/-- C13 at the input `http://www.example.org/?a&b=c`: the segment `a` of the
query `a&b=c` contains no `=`, and `parse` returns a URI whose only query pair
has the key `a&b` and the value `c`; the queries `a`, `a=1&` and `a=1&b` are
rejected with `invalid query`. -/
theorem C13_segment_without_eq_accepted :
    uri.parse (bytes "http://www.example.org/?a&b=c")
        = .ok ⟨false, bytes "www.example.org", 80, bytes "/", [], [(bytes "a&b", bytes "c")]⟩
    ∧ 61 ∉ bytes "a"
    ∧ uri.parse (bytes "http://www.example.org/?a") = .error .InvalidQuery
    ∧ uri.parse (bytes "http://www.example.org/?a=1&") = .error .InvalidQuery
    ∧ uri.parse (bytes "http://www.example.org/?a=1&b") = .error .InvalidQuery := by
  decide

theorem decode_ne_nil (U : SpaceClass) (s : Str) (hs : s ≠ []) : encoder.decode U s ≠ [] := by
  cases s with
  | nil => exact absurd rfl hs
  | cons c cs =>
    unfold encoder.decode
    rw [encoder.decode_loop]
    split
    · simp
    · split <;> simp

theorem calls_key_append (os k q : Str) (hk : ∀ c ∈ k, c ≠ 61 ∧ c ≠ 0) :
    calls_key os (k ++ 61 :: q)
      = if (uri.decode (os ++ k)).isEmpty then .error .InvalidQueryKeyEmpty
        else calls_val (uri.decode (os ++ k)) [] q := by
  induction k generalizing os with
  | nil => simp [calls_key]
  | cons x xs ih =>
    have hx := hk x (List.mem_cons_self _ _)
    have ih := ih (os ++ [x]) (fun c hc => hk c (List.mem_cons_of_mem _ hc))
    have e : os ++ x :: xs = os ++ [x] ++ xs := by simp
    rw [List.cons_append, calls_key, if_pos ⟨hx.1, hx.2⟩, ih, e]

theorem calls_val_append_amp (qkey os v q : Str) (hv : ∀ c ∈ v, c ≠ 38 ∧ c ≠ 0) :
    calls_val qkey os (v ++ 38 :: q)
      = match calls_key [] q with
        | .error e => .error e
        | .ok ps => .ok ((qkey, uri.decode (os ++ v)) :: ps) := by
  induction v generalizing os with
  | nil => simp [calls_val]
  | cons x xs ih =>
    have hx := hv x (List.mem_cons_self _ _)
    have ih := ih (os ++ [x]) (fun c hc => hv c (List.mem_cons_of_mem _ hc))
    have e : os ++ x :: xs = os ++ [x] ++ xs := by simp
    rw [List.cons_append, calls_val, if_pos ⟨hx.1, hx.2⟩, ih, e]

theorem calls_val_all (qkey os v : Str) (hv : ∀ c ∈ v, c ≠ 38 ∧ c ≠ 0) :
    calls_val qkey os v = .ok [(qkey, uri.decode (os ++ v))] := by
  induction v generalizing os with
  | nil => simp [calls_val]
  | cons x xs ih =>
    have hx := hv x (List.mem_cons_self _ _)
    have ih := ih (os ++ [x]) (fun c hc => hv c (List.mem_cons_of_mem _ hc))
    have e : os ++ x :: xs = os ++ [x] ++ xs := by simp
    rw [calls_val, if_pos ⟨hx.1, hx.2⟩, ih, e]

/-- The calls of the query loop on `k1=v1&...&kn=vn`. -/
theorem calls_key_raw_query (pairs : List (Str × Str)) (hne : pairs ≠ [])
    (hk : ∀ kv ∈ pairs, kv.1 ≠ [] ∧ ∀ c ∈ kv.1, c ≠ 61 ∧ c ≠ 0)
    (hv : ∀ kv ∈ pairs, ∀ c ∈ kv.2, c ≠ 38 ∧ c ≠ 0) :
    calls_key [] (raw_query pairs)
      = .ok (pairs.map fun kv => (uri.decode kv.1, uri.decode kv.2)) := by
  induction pairs with
  | nil => exact absurd rfl hne
  | cons kv rest ih =>
    have hkv := hk kv (List.mem_cons_self _ _)
    have hvv := hv kv (List.mem_cons_self _ _)
    have hdk : (uri.decode ([] ++ kv.1)).isEmpty = false := by
      have := decode_ne_nil NO_PLUS kv.1 hkv.1
      rw [List.nil_append]
      cases h : uri.decode kv.1 with
      | nil => exact absurd h this
      | cons _ _ => rfl
    cases rest with
    | nil =>
      have e : raw_query [kv] = kv.1 ++ 61 :: kv.2 := by simp [raw_query, join]
      rw [e, calls_key_append _ _ _ hkv.2, hdk, if_neg (by simp), calls_val_all _ _ _ hvv]
      simp
    | cons kv' rest' =>
      have e : raw_query (kv :: kv' :: rest')
          = kv.1 ++ 61 :: (kv.2 ++ 38 :: raw_query (kv' :: rest')) := by
        simp [raw_query, join]
      have ih := ih (by simp) (fun x hx => hk x (List.mem_cons_of_mem _ hx))
        (fun x hx => hv x (List.mem_cons_of_mem _ hx))
      rw [e, calls_key_append _ _ _ hkv.2, hdk, if_neg (by simp),
        calls_val_append_amp _ _ _ _ hvv, ih]
      simp

/-- The path, query and fragment sections on a remainder that is an optional
path followed by `?`. -/
theorem parse_rest_with_query (path l : Str)
    (hpath : path = [] ∨ ∃ t, path = 47 :: t ∧ ∀ x ∈ t, path_stop x = false) :
    parse_rest (path ++ 63 :: l)
      = (if path = [] then [47] else path, (scan query_stop l).1,
          if peek (scan query_stop l).2 = 35
            then (scan fragment_stop (scan query_stop l).2.tail).1 else []) := by
  rcases hpath with rfl | ⟨t, rfl, ht⟩
  · simp [parse_rest, peek]
  · simp [parse_rest, peek, scan_append_stop path_stop t 63 l ht (by decide)]

theorem raw_query_chars (pairs : List (Str × Str)) (P : Nat → Prop)
    (hk : ∀ kv ∈ pairs, ∀ c ∈ kv.1, P c) (hv : ∀ kv ∈ pairs, ∀ c ∈ kv.2, P c)
    (h61 : P 61) (h38 : P 38) : ∀ c ∈ raw_query pairs, P c := by
  induction pairs with
  | nil => simp [raw_query, join]
  | cons kv rest ih =>
    have ih := ih (fun x hx => hk x (List.mem_cons_of_mem _ hx))
      (fun x hx => hv x (List.mem_cons_of_mem _ hx))
    have hkk := hk kv (List.mem_cons_self _ _)
    have hvv := hv kv (List.mem_cons_self _ _)
    cases rest with
    | nil =>
      intro c hc
      simp only [raw_query, List.map_cons, List.map_nil, join, List.append_assoc,
        List.singleton_append, List.mem_append, List.mem_cons] at hc
      rcases hc with hc | rfl | hc
      · exact hkk c hc
      · exact h61
      · exact hvv c hc
    | cons kv' rest' =>
      intro c hc
      have e : raw_query (kv :: kv' :: rest')
          = kv.1 ++ 61 :: (kv.2 ++ 38 :: raw_query (kv' :: rest')) := by
        simp [raw_query, join]
      rw [e] at hc
      simp only [List.mem_append, List.mem_cons] at hc
      rcases hc with hc | rfl | hc | rfl | hc
      · exact hkk c hc
      · exact h61
      · exact hvv c hc
      · exact h38
      · exact ih c hc

theorem raw_query_ne_nil (pairs : List (Str × Str)) (hne : pairs ≠ []) :
    raw_query pairs ≠ [] := by
  cases pairs with
  | nil => exact absurd rfl hne
  | cons kv rest =>
    cases rest with
    | nil => simp [raw_query, join]
    | cons kv' rest' => simp [raw_query, join]

theorem digitChar_toNat (m : Nat) (h : m < 10) : (Nat.digitChar m).toNat = 48 + m := by
  interval_cases m <;> rfl

theorem toDigitsCore_decimal (fuel : Nat) :
    ∀ (n : Nat) (ds : List Char), n < fuel →
      ∃ D : Str, (Nat.toDigitsCore 10 fuel n ds).map Char.toNat = D ++ ds.map Char.toNat
        ∧ D ≠ [] ∧ (∀ x ∈ D, 48 ≤ x ∧ x ≤ 57) ∧ decimal_value D = n := by
  induction fuel with
  | zero => intro n ds h; omega
  | succ fuel ih =>
    intro n ds h
    have hd := digitChar_toNat (n % 10) (Nat.mod_lt _ (by decide))
    by_cases h0 : n / 10 = 0
    · refine ⟨[48 + n % 10], ?_, by simp, ?_, ?_⟩
      · simp [Nat.toDigitsCore, h0, hd]
      · intro x hx
        simp only [List.mem_singleton] at hx
        omega
      · simp only [decimal_value, List.foldl_cons, List.foldl_nil]
        omega
    · obtain ⟨D, hD, _, hdig, hval⟩ := ih (n / 10) (Nat.digitChar (n % 10) :: ds) (by omega)
      refine ⟨D ++ [48 + n % 10], ?_, by simp, ?_, ?_⟩
      · simp only [Nat.toDigitsCore, h0, if_false, hD, List.map_cons, hd, List.append_assoc,
          List.singleton_append]
      · intro x hx
        rcases List.mem_append.1 hx with hx | hx
        · exact hdig x hx
        · simp only [List.mem_singleton] at hx
          omega
      · simp only [decimal_value, List.foldl_append, List.foldl_cons, List.foldl_nil] at hval ⊢
        rw [hval]
        omega

theorem decimal_digits (n : Nat) :
    decimal n ≠ [] ∧ (∀ x ∈ decimal n, 48 ≤ x ∧ x ≤ 57) ∧ decimal_value (decimal n) = n := by
  obtain ⟨D, hD, hne, hdig, hval⟩ := toDigitsCore_decimal (n + 1) n [] (by omega)
  have e : decimal n = D := by simpa [decimal, Nat.toDigits] using hD
  rw [e]
  exact ⟨hne, hdig, hval⟩

theorem lexical_cast_ushort_decimal (n : Nat) (h : n ≤ 65535) :
    lexical_cast_ushort (decimal n) = some n := by
  obtain ⟨hne, hdig, hval⟩ := decimal_digits n
  rw [lexical_cast_ushort_digits _ hne hdig, hval, if_pos h]

theorem lexical_cast_ushort_le {t : Str} {n : Nat} (h : lexical_cast_ushort t = some n) :
    n ≤ 65535 := by
  unfold lexical_cast_ushort at h
  split at h
  · cases h
  · simp only at h
    split at h
    · simp only [Option.some.injEq] at h
      omega
    · cases h

/-! ## Characters of encoded strings -/

theorem hexDigit_range (n : Nat) (h : n < 16) :
    (48 ≤ hexDigit n ∧ hexDigit n ≤ 57) ∨ (97 ≤ hexDigit n ∧ hexDigit n ≤ 102) := by
  unfold hexDigit
  split <;> omega

theorem uri_encode_chars (s : Str) :
    ∀ c ∈ uri.encode s, c ≠ 61 ∧ c ≠ 38 ∧ c ≠ 35 ∧ c ≠ 0 := by
  induction s with
  | nil => simp [uri.encode, encoder.encode]
  | cons x xs ih =>
    intro c hc
    unfold uri.encode at hc ih
    rw [encoder.encode] at hc
    rcases List.mem_append.1 hc with hc | hc
    · by_cases hm : RFC3986.match_ x = false
      · simp only [hm, Bool.not_false, if_true, List.mem_singleton] at hc
        subst hc
        have := RFC3986_unreserved_ne_delims hm
        exact ⟨this.1, this.2.1, this.2.2.1, this.2.2.2.1⟩
      · have hm' : RFC3986.match_ x = true := by simpa using hm
        simp only [hm', Bool.not_true, Bool.false_eq_true, if_false] at hc
        split at hc
        · have e : NO_PLUS.space_encoded = [37, 50, 48] := rfl
          rw [e] at hc
          simp only [List.mem_cons, List.mem_singleton, List.mem_nil_iff, or_false] at hc
          omega
        · simp only [hex2, List.mem_cons, List.mem_singleton, List.mem_nil_iff, or_false] at hc
          have h1 := hexDigit_range (x % 256 / 16) (by omega)
          have h2 := hexDigit_range (x % 256 % 16) (by omega)
          omega
    · exact ih c hc

theorem uri_encode_ne_nil (s : Str) (hs : s ≠ []) : uri.encode s ≠ [] := by
  cases s with
  | nil => exact absurd rfl hs
  | cons x xs =>
    unfold uri.encode
    rw [encoder.encode]
    intro h
    have h' := (List.append_eq_nil.1 h).1
    split at h'
    · cases h'
    · split at h'
      · cases h'
      · cases h'

/-! ## Permutations of mapped lists -/

theorem exists_perm_of_perm_map {α β : Type} (f : α → β) {a b : List β} (h : a.Perm b) :
    ∀ l : List α, b = l.map f → ∃ l' : List α, l'.Perm l ∧ l'.map f = a := by
  induction h with
  | nil =>
    intro l hl
    exact ⟨l, List.Perm.refl _, hl.symm⟩
  | cons x _ ih =>
    intro l hl
    cases l with
    | nil => cases hl
    | cons y l0 =>
      simp only [List.map_cons, List.cons.injEq] at hl
      obtain ⟨l', hp, hm⟩ := ih l0 hl.2
      exact ⟨y :: l', hp.cons y, by simp [hm, hl.1]⟩
  | swap x y t =>
    intro l hl
    cases l with
    | nil => cases hl
    | cons p l0 =>
      cases l0 with
      | nil => cases hl
      | cons q l1 =>
        simp only [List.map_cons, List.cons.injEq] at hl
        exact ⟨q :: p :: l1, List.Perm.swap p q l1, by simp [hl.1, hl.2.1, hl.2.2]⟩
  | trans _ _ ih1 ih2 =>
    intro l hl
    obtain ⟨lm, hpm, hmm⟩ := ih2 l hl
    obtain ⟨l', hp, hm⟩ := ih1 lm hmm.symm
    exact ⟨l', hp.trans hpm, hm⟩

/-! ## What an accepted input leaves in the URI -/

theorem to_char_lt (d : Int) : to_char d < 256 := by
  unfold to_char
  omega

theorem decode_loop_isBytes (U : SpaceClass) (hU : U.plus_decoded < 256) (s : Str) :
    ∀ skip : Nat, isBytes s → isBytes (encoder.decode_loop U skip s) := by
  induction s with
  | nil => intro skip _; cases skip <;> simp [encoder.decode_loop, isBytes]
  | cons c cs ih =>
    intro skip hs
    have hc : c < 256 := hs c (List.mem_cons_self _ _)
    have hcs : isBytes cs := fun x hx => hs x (List.mem_cons_of_mem _ hx)
    cases skip with
    | succ k => rw [encoder.decode_loop]; exact ih k hcs
    | zero =>
      rw [encoder.decode_loop]
      split
      · intro x hx
        rcases List.mem_cons.1 hx with rfl | hx
        · exact hU
        · exact ih 0 hcs x hx
      · split
        · intro x hx
          rcases List.mem_cons.1 hx with rfl | hx
          · exact to_char_lt _
          · exact ih 2 hcs x hx
        · intro x hx
          rcases List.mem_cons.1 hx with rfl | hx
          · exact hc
          · exact ih 0 hcs x hx

theorem uri_decode_isBytes (s : Str) (hs : isBytes s) : isBytes (uri.decode s) :=
  decode_loop_isBytes NO_PLUS (by decide) s 0 hs

theorem isBytes_append {a b : Str} (ha : isBytes a) (hb : isBytes b) : isBytes (a ++ b) := by
  intro x hx
  rcases List.mem_append.1 hx with h | h
  · exact ha x h
  · exact hb x h

theorem calls_pairs_facts (q : Str) :
    (∀ (os : Str) (ps : List (Str × Str)), calls_key os q = .ok ps → isBytes os → isBytes q
        → ∀ kv ∈ ps, kv.1 ≠ [] ∧ isBytes kv.1 ∧ isBytes kv.2)
    ∧ (∀ (qkey os : Str) (ps : List (Str × Str)), calls_val qkey os q = .ok ps
        → qkey ≠ [] → isBytes qkey → isBytes os → isBytes q
        → ∀ kv ∈ ps, kv.1 ≠ [] ∧ isBytes kv.1 ∧ isBytes kv.2) := by
  induction q with
  | nil =>
    constructor
    · intro os ps h; simp [calls_key] at h
    · intro qkey os ps h hk hkb hob _ kv hkv
      simp only [calls_val, Except.ok.injEq] at h
      subst h
      simp only [List.mem_singleton] at hkv
      subst hkv
      exact ⟨hk, hkb, uri_decode_isBytes os hob⟩
  | cons c q ih =>
    obtain ⟨ihk, ihv⟩ := ih
    have hsub : ∀ {os : Str}, isBytes os → isBytes (c :: q) → isBytes (os ++ [c]) :=
      fun hos hq => isBytes_append hos (fun x hx => by
        simp only [List.mem_singleton] at hx
        subst hx
        exact hq x (List.mem_cons_self _ _))
    have htail : isBytes (c :: q) → isBytes q :=
      fun hq x hx => hq x (List.mem_cons_of_mem _ hx)
    constructor
    · intro os ps h hos hq
      rw [calls_key] at h
      split at h
      · exact ihk _ _ h (hsub hos hq) (htail hq)
      · split at h
        · cases h
        · split at h
          · cases h
          · rename_i hne
            refine ihv _ _ _ h ?_ (uri_decode_isBytes os hos) (by simp [isBytes]) (htail hq)
            intro hnil
            rw [hnil] at hne
            exact hne rfl
    · intro qkey os ps h hk hkb hos hq
      rw [calls_val] at h
      split at h
      · exact ihv _ _ _ h hk hkb (hsub hos hq) (htail hq)
      · split at h
        · cases hr : calls_key [] q with
          | error e => rw [hr] at h; cases h
          | ok r =>
            rw [hr] at h
            simp only [Except.ok.injEq] at h
            subst h
            intro kv hkv
            rcases List.mem_cons.1 hkv with rfl | hkv
            · exact ⟨hk, hkb, uri_decode_isBytes os hos⟩
            · exact ihk _ _ hr (by simp [isBytes]) (htail hq) kv hkv
        · simp only [Except.ok.injEq] at h
          subst h
          intro kv hkv
          simp only [List.mem_singleton] at hkv
          subst hkv
          exact ⟨hk, hkb, uri_decode_isBytes os hos⟩

theorem parse_calls_facts {query : Str} {ps : List (Str × Str)}
    (h : parse_calls query = .ok ps) (hq : isBytes query) :
    ∀ kv ∈ ps, kv.1 ≠ [] ∧ isBytes kv.1 ∧ isBytes kv.2 := by
  unfold parse_calls at h
  split at h
  · exact (calls_pairs_facts query).1 [] ps h (by simp [isBytes]) hq
  · simp only [Except.ok.injEq] at h
    subst h
    simp

theorem mem_of_mem_scan_fst (stop : Nat → Bool) (l : Str) (x : Nat)
    (hx : x ∈ (scan stop l).1) : x ∈ l := by
  rw [← scan_join stop l]
  exact List.mem_append_left _ hx

theorem parse_rest_query_mem (c : Str) : ∀ x ∈ (parse_rest c).2.1, x ∈ c := by
  intro x hx
  have hc1 : ∀ y ∈ (if peek c = 47 then (scan path_stop c.tail).2 else c), y ∈ c := by
    intro y hy
    by_cases h : peek c = 47
    · rw [if_pos h] at hy
      exact List.mem_of_mem_tail (mem_of_mem_scan_snd _ _ _ hy)
    · rw [if_neg h] at hy
      exact hy
  have e : (parse_rest c).2.1
      = if peek (if peek c = 47 then (scan path_stop c.tail).2 else c) = 63
        then (scan query_stop (if peek c = 47 then (scan path_stop c.tail).2 else c).tail).1
        else [] := rfl
  rw [e] at hx
  by_cases h : peek (if peek c = 47 then (scan path_stop c.tail).2 else c) = 63
  · rw [if_pos h] at hx
    exact hc1 x (List.mem_of_mem_tail (mem_of_mem_scan_fst _ _ _ hx))
  · rw [if_neg h] at hx
    cases hx

theorem parse_rest_fragment (c : Str) : ∀ x ∈ (parse_rest c).2.2, x ≠ 0 := by
  intro x hx
  have key : ∀ c' : Str, x ∈ (if peek c' = 35 then (scan fragment_stop c'.tail).1 else [])
      → x ≠ 0 := by
    intro c' h
    by_cases h35 : peek c' = 35
    · rw [if_pos h35] at h
      have := scan_fst_not_stop fragment_stop _ x h
      simpa [fragment_stop] using this
    · rw [if_neg h35] at h
      cases h
  exact key _ hx

/-! ## Parsing a serialized query -/

/-- The query loop reads the pairs back from `query_string()`, in the order of
the sorted encoded strings. -/
theorem query_string_calls (u : uri) (hq : u.query_ ≠ [])
    (hinv : ∀ kv ∈ u.query_, kv.1 ≠ [] ∧ isBytes kv.1 ∧ isBytes kv.2) :
    ∃ l' : List (Str × Str), l'.Perm u.query_
      ∧ calls_key [] u.query_string = .ok l'
      ∧ u.query_string ≠ []
      ∧ ∀ c ∈ u.query_string, query_stop c = false := by
  obtain ⟨l', hperm, hmap⟩ := exists_perm_of_perm_map
    (fun param : Str × Str => uri.encode param.1 ++ [61] ++ uri.encode param.2)
    (sort_perm (u.query_.map fun param => uri.encode param.1 ++ [61] ++ uri.encode param.2))
    u.query_ rfl
  have hinv' : ∀ kv ∈ l', kv.1 ≠ [] ∧ isBytes kv.1 ∧ isBytes kv.2 :=
    fun kv h => hinv kv (hperm.mem_iff.1 h)
  have hne' : l' ≠ [] := by
    intro h
    rw [h] at hperm
    exact hq hperm.symm.eq_nil
  have hqs : u.query_string
      = raw_query (l'.map fun kv => (uri.encode kv.1, uri.encode kv.2)) := by
    unfold uri.query_string raw_query
    rw [← hmap, List.map_map]
    rfl
  have hE1 : ∀ kv ∈ l'.map (fun kv : Str × Str => (uri.encode kv.1, uri.encode kv.2)),
      ∀ c ∈ kv.1, c ≠ 61 ∧ c ≠ 38 ∧ c ≠ 35 ∧ c ≠ 0 := by
    intro kv h c hc
    obtain ⟨kv0, _, rfl⟩ := List.mem_map.1 h
    exact uri_encode_chars kv0.1 c hc
  have hE2 : ∀ kv ∈ l'.map (fun kv : Str × Str => (uri.encode kv.1, uri.encode kv.2)),
      ∀ c ∈ kv.2, c ≠ 61 ∧ c ≠ 38 ∧ c ≠ 35 ∧ c ≠ 0 := by
    intro kv h c hc
    obtain ⟨kv0, _, rfl⟩ := List.mem_map.1 h
    exact uri_encode_chars kv0.2 c hc
  have hE0 : ∀ kv ∈ l'.map (fun kv : Str × Str => (uri.encode kv.1, uri.encode kv.2)),
      kv.1 ≠ [] := by
    intro kv h
    obtain ⟨kv0, h0, rfl⟩ := List.mem_map.1 h
    exact uri_encode_ne_nil kv0.1 (hinv' kv0 h0).1
  have hEne : l'.map (fun kv : Str × Str => (uri.encode kv.1, uri.encode kv.2)) ≠ [] := by
    intro h
    exact hne' (List.map_eq_nil_iff.1 h)
  refine ⟨l', hperm, ?_, ?_, ?_⟩
  · rw [hqs, calls_key_raw_query _ hEne
      (fun kv h => ⟨hE0 kv h, fun c hc => ⟨(hE1 kv h c hc).1, (hE1 kv h c hc).2.2.2⟩⟩)
      (fun kv h c hc => ⟨(hE2 kv h c hc).2.1, (hE2 kv h c hc).2.2.2⟩), List.map_map]
    congr 1
    conv_rhs => rw [← List.map_id l']
    apply List.map_congr_left
    intro kv hkv
    have h1 := decode_encode_of RFC3986.match_ NO_PLUS (Or.inr rfl)
      (fun _ h => RFC3986_unreserved_ne h) kv.1 (hinv' kv hkv).2.1
    have h2 := decode_encode_of RFC3986.match_ NO_PLUS (Or.inr rfl)
      (fun _ h => RFC3986_unreserved_ne h) kv.2 (hinv' kv hkv).2.2
    show (uri.decode (uri.encode kv.1), uri.decode (uri.encode kv.2)) = kv
    unfold uri.decode uri.encode
    rw [h1, h2]
  · rw [hqs]
    exact raw_query_ne_nil _ hEne
  · rw [hqs]
    apply raw_query_chars _ (fun c => query_stop c = false)
    · intro kv h c hc
      have := hE1 kv h c hc
      simp [query_stop, this]
    · intro kv h c hc
      have := hE2 kv h c hc
      simp [query_stop, this]
    · decide
    · decide

/-! ## Parsing a serialized URI -/

theorem fragment_part (frag : Str) (hf : ∀ x ∈ frag, x ≠ 0) :
    ((if (!frag.isEmpty) = true then 35 :: frag else []) = []
      ∨ ∃ t, (if (!frag.isEmpty) = true then 35 :: frag else []) = 35 :: t)
    ∧ (if peek (if (!frag.isEmpty) = true then 35 :: frag else []) = 35
        then (scan fragment_stop (if (!frag.isEmpty) = true then 35 :: frag else []).tail).1
        else []) = frag := by
  cases frag with
  | nil => simp [peek]
  | cons a f =>
    have hs : ∀ x ∈ a :: f, fragment_stop x = false := fun x hx => by
      have := hf x hx; simp [fragment_stop, this]
    simp [peek, scan_all fragment_stop (a :: f) hs]

theorem parse_rest_without_query (t fpart : Str) (ht : ∀ x ∈ t, path_stop x = false)
    (hf : fpart = [] ∨ ∃ f, fpart = 35 :: f) :
    parse_rest (47 :: t ++ fpart)
      = (47 :: t, [], if peek fpart = 35 then (scan fragment_stop fpart.tail).1 else []) := by
  rcases hf with rfl | ⟨f, rfl⟩
  · simp [parse_rest, peek, scan_all path_stop t ht]
  · simp [parse_rest, peek, scan_append_stop path_stop t 35 f ht (by decide)]

theorem str_sections (u : uri) :
    u.str
      = (if u.secure_ = true then bytes "https://" else bytes "http://")
        ++ (u.host_
          ++ ((if (!((!u.secure_ && u.port_ == 80) || (u.secure_ && u.port_ == 443))) = true
                then 58 :: decimal u.port_ else [])
            ++ (u.path_
              ++ ((if (!u.query_.isEmpty) = true then 63 :: u.query_string else [])
                ++ (if (!u.fragment_.isEmpty) = true then 35 :: u.fragment_ else []))))) := by
  simp [uri.str]

/-- For a URI value with the properties `parse` guarantees, `parse(str())`
succeeds and returns the same fields and a permutation of the query pairs. -/
theorem parse_str (u : uri)
    (hh : u.host_ ≠ []) (hh' : ∀ x ∈ u.host_, host_stop x = false)
    (hport : u.port_ ≤ 65535)
    (hpath : ∃ t, u.path_ = 47 :: t ∧ ∀ x ∈ t, path_stop x = false)
    (hfrag : ∀ x ∈ u.fragment_, x ≠ 0)
    (hq : ∀ kv ∈ u.query_, kv.1 ≠ [] ∧ isBytes kv.1 ∧ isBytes kv.2) :
    ∃ l' : List (Str × Str), l'.Perm u.query_
      ∧ uri.parse u.str
          = .ok (append_all ⟨u.secure_, u.host_, u.port_, u.path_, u.fragment_, []⟩ l') := by
  obtain ⟨t, hpt, ht⟩ := hpath
  obtain ⟨hfp1, hfp2⟩ := fragment_part u.fragment_ hfrag
  have hsec : (u.secure_ = false ∧ is_http (if u.secure_ = true then bytes "https://"
        else bytes "http://"))
      ∨ (u.secure_ = true ∧ is_https (if u.secure_ = true then bytes "https://"
        else bytes "http://")) := by
    cases hs : u.secure_
    · exact Or.inl ⟨rfl, 104, 116, 116, 112, rfl, by decide, by decide, by decide, by decide⟩
    · exact Or.inr ⟨rfl, 104, 116, 116, 112, 115, rfl, by decide, by decide, by decide,
        by decide, by decide⟩
  have hpp : ((if (!((!u.secure_ && u.port_ == 80) || (u.secure_ && u.port_ == 443))) = true
        then 58 :: decimal u.port_ else []) = []
        ∧ u.port_ = (if u.secure_ = true then 443 else 80))
      ∨ ∃ ds, (if (!((!u.secure_ && u.port_ == 80) || (u.secure_ && u.port_ == 443))) = true
          then 58 :: decimal u.port_ else []) = 58 :: ds
        ∧ (∀ x ∈ ds, 48 ≤ x ∧ x ≤ 57) ∧ lexical_cast_ushort ds = some u.port_ := by
    by_cases hd : ((!u.secure_ && u.port_ == 80) || (u.secure_ && u.port_ == 443)) = true
    · left
      refine ⟨by simp [hd], ?_⟩
      cases hs : u.secure_ <;> simp [hs] at hd ⊢ <;> exact hd
    · right
      refine ⟨decimal u.port_, by simp [hd], (decimal_digits u.port_).2.1,
        lexical_cast_ushort_decimal u.port_ hport⟩
  have hrest : ∀ l : Str, u.path_ ++ l = [] ∨ ∃ d t', u.path_ ++ l = d :: t' ∧ port_stop d = true := by
    intro l
    rw [hpt]
    exact Or.inr ⟨47, t ++ l, rfl, by decide⟩
  have hlen : ∀ l : Str, 9 ≤ ((if u.secure_ = true then bytes "https://" else bytes "http://")
      ++ (u.host_ ++ ((if (!((!u.secure_ && u.port_ == 80) || (u.secure_ && u.port_ == 443))) = true
                then 58 :: decimal u.port_ else []) ++ (u.path_ ++ l)))).length := by
    intro l
    have h1 : 7 ≤ (if u.secure_ = true then bytes "https://" else bytes "http://").length := by
      cases u.secure_ <;> decide
    have h2 : 0 < u.host_.length := List.length_pos.2 hh
    have h3 : 0 < u.path_.length := by rw [hpt]; simp
    simp only [List.length_append]
    omega
  rw [str_sections, parse_structured _ u.host_ _ _ u.secure_ u.port_ hsec hh hh' hpp (hrest _)
    (hlen _)]
  by_cases hqe : u.query_ = []
  · refine ⟨[], by rw [hqe], ?_⟩
    have e : (if (!u.query_.isEmpty) = true then 63 :: u.query_string else []) = [] := by
      simp [hqe]
    rw [e, List.nil_append, hpt, parse_rest_without_query t _ ht hfp1, hfp2]
    simp [parse_calls]
  · obtain ⟨l', hperm, hcalls, hne, hstop⟩ := query_string_calls u hqe hq
    refine ⟨l', hperm, ?_⟩
    have e : (if (!u.query_.isEmpty) = true then 63 :: u.query_string else [])
        = 63 :: u.query_string := by
      cases hl : u.query_ with
      | nil => exact absurd hl hqe
      | cons _ _ => simp
    have hscan : scan query_stop (u.query_string
        ++ (if (!u.fragment_.isEmpty) = true then 35 :: u.fragment_ else []))
        = (u.query_string, if (!u.fragment_.isEmpty) = true then 35 :: u.fragment_ else []) := by
      rcases hfp1 with h | ⟨f, h⟩
      · rw [h, List.append_nil]; exact scan_all _ _ hstop
      · rw [h]; exact scan_append_stop _ _ 35 f hstop (by decide)
    have hqne : u.query_string.isEmpty = false := by
      cases h : u.query_string with
      | nil => exact absurd h hne
      | cons _ _ => rfl
    rw [e, List.cons_append, parse_rest_with_query u.path_ _ (Or.inr ⟨t, hpt, ht⟩), hscan]
    have hp0 : u.path_ ≠ [] := by rw [hpt]; simp
    simp only [hfp2, hp0, if_false, parse_calls, hqne, Bool.not_false, if_true, hcalls]

/-- The properties of every value `parse` returns for a string of bytes. -/
theorem parse_ok_invariant {s : Str} {u : uri} (hs : isBytes s) (h : uri.parse s = .ok u) :
    u.host_ ≠ [] ∧ (∀ x ∈ u.host_, host_stop x = false) ∧ u.port_ ≤ 65535
    ∧ (∃ t, u.path_ = 47 :: t ∧ ∀ x ∈ t, path_stop x = false)
    ∧ (∀ x ∈ u.fragment_, x ≠ 0)
    ∧ (∀ kv ∈ u.query_, kv.1 ≠ [] ∧ isBytes kv.1 ∧ isBytes kv.2) := by
  obtain ⟨_, sec, c, port, c2, ps, hsch, hne, hport, hcalls, rfl⟩ := parse_ok_sections h
  obtain ⟨_, hhost, hprt, hpath, hfrag⟩ := append_all_fields
    ⟨sec, (scan host_stop c).1, port, (parse_rest c2).1, (parse_rest c2).2.2, []⟩ ps
  rw [hhost, hprt, hpath, hfrag]
  obtain ⟨p, hp, _⟩ := parse_scheme_ok hsch
  have hc : isBytes c := fun x hx => hs x (by rw [hp]; exact List.mem_append_right _ hx)
  have hc' : isBytes (scan host_stop c).2 := fun x hx => hc x (mem_of_mem_scan_snd _ _ _ hx)
  have hc2 : isBytes c2 := by
    rcases parse_port_ok hport with ⟨_, rfl, _⟩ | ⟨ds, hcs, _, _, _⟩
    · exact hc'
    · intro x hx
      apply hc' x
      rw [hcs]
      exact List.mem_cons_of_mem _ (List.mem_append_right _ hx)
  refine ⟨hne, scan_fst_not_stop host_stop c, ?_, ?_, parse_rest_fragment c2, ?_⟩
  · rcases parse_port_ok hport with ⟨_, _, rfl⟩ | ⟨ds, _, _, _, hcast⟩
    · show (if sec = true then 443 else 80) ≤ 65535
      split <;> omega
    · exact lexical_cast_ushort_le hcast
  · obtain ⟨h1, h2⟩ := parse_rest_path c2
    cases hpc : (parse_rest c2).1 with
    | nil => rw [hpc] at h1; simp at h1
    | cons a t =>
      rw [hpc] at h1 h2
      simp only [List.head?_cons, Option.some.injEq] at h1
      subst h1
      refine ⟨t, rfl, fun x hx => ?_⟩
      have := h2 x (List.mem_cons_of_mem _ hx)
      simp [path_stop, this]
  · intro kv hkv
    have hperm := append_all_query_perm
      ⟨sec, (scan host_stop c).1, port, (parse_rest c2).1, (parse_rest c2).2.2, []⟩ ps
    have hmem : kv ∈ ps := by simpa using hperm.mem_iff.1 hkv
    exact parse_calls_facts hcalls (fun x hx => hc2 x (parse_rest_query_mem c2 x hx)) kv hmem

theorem str_eq_of_perm {u w : uri} (h1 : w.secure_ = u.secure_) (h2 : w.host_ = u.host_)
    (h3 : w.port_ = u.port_) (h4 : w.path_ = u.path_) (h5 : w.fragment_ = u.fragment_)
    (hq : w.query_.Perm u.query_) : w.str = u.str := by
  have he : w.query_.isEmpty = u.query_.isEmpty := by
    cases hw : w.query_ with
    | nil =>
      rw [hw] at hq
      rw [hq.symm.eq_nil]
    | cons a l =>
      cases hu : u.query_ with
      | nil => rw [hu] at hq; rw [hq.eq_nil] at hw; cases hw
      | cons _ _ => rfl
  unfold uri.str
  rw [h1, h2, h3, h4, h5, he, query_string_eq_of_perm hq]

/-- C20: for every accepted string of bytes `s` with `u = parse(s)`,
`parse(u.str())` succeeds and returns a URI with the same `secure()`, `host()`,
`port()`, `path()`, `fragment()` and the same multiset of query pairs as `u`,
and its `str()` is `u.str()`. -/
theorem C20_str_normal_form (s : Str) (u : uri) (hs : isBytes s)
    (h : uri.parse s = .ok u) :
    ∃ w, uri.parse u.str = .ok w
      ∧ w.secure = u.secure ∧ w.host = u.host ∧ w.port = u.port ∧ w.path = u.path
      ∧ w.fragment = u.fragment
      ∧ (w.query : Multiset (Str × Str)) = (u.query : Multiset (Str × Str))
      ∧ w.str = u.str := by
  obtain ⟨hh, hh', hport, hpath, hfrag, hq⟩ := parse_ok_invariant hs h
  obtain ⟨l', hperm, hparse⟩ := parse_str u hh hh' hport hpath hfrag hq
  obtain ⟨f1, f2, f3, f4, f5⟩ := append_all_fields
    ⟨u.secure_, u.host_, u.port_, u.path_, u.fragment_, []⟩ l'
  have hwq : (append_all ⟨u.secure_, u.host_, u.port_, u.path_, u.fragment_, []⟩ l').query_.Perm
      u.query_ := by
    have h0 := append_all_query_perm ⟨u.secure_, u.host_, u.port_, u.path_, u.fragment_, []⟩ l'
    have h1 : (append_all ⟨u.secure_, u.host_, u.port_, u.path_, u.fragment_, []⟩
        l').query_.Perm l' := by simpa using h0
    exact h1.trans hperm
  exact ⟨_, hparse, f1, f2, f3, f4, f5, Multiset.coe_eq_coe.2 hwq,
    str_eq_of_perm f1 f2 f3 f4 f5 hwq⟩

/-- C20 at `HTTPS://www.example.org:0443/a%20b?b=%26&a=x+y&b=1#f?#g`. -/
theorem C20_str_normal_form_witness :
    (∃ w, uri.parse (uri.str ⟨true, bytes "www.example.org", 443, bytes "/a%20b", bytes "f?#g",
          [(bytes "a", bytes "x+y"), (bytes "b", bytes "&"), (bytes "b", bytes "1")]⟩) = .ok w
      ∧ w.secure = true ∧ w.host = bytes "www.example.org" ∧ w.port = 443
      ∧ w.path = bytes "/a%20b" ∧ w.fragment = bytes "f?#g"
      ∧ (w.query : Multiset (Str × Str))
          = (([(bytes "a", bytes "x+y"), (bytes "b", bytes "&"), (bytes "b", bytes "1")]
              : List (Str × Str)) : Multiset (Str × Str))
      ∧ w.str = uri.str ⟨true, bytes "www.example.org", 443, bytes "/a%20b", bytes "f?#g",
          [(bytes "a", bytes "x+y"), (bytes "b", bytes "&"), (bytes "b", bytes "1")]⟩)
    ∧ uri.str ⟨true, bytes "www.example.org", 443, bytes "/a%20b", bytes "f?#g",
          [(bytes "a", bytes "x+y"), (bytes "b", bytes "&"), (bytes "b", bytes "1")]⟩
        = bytes "https://www.example.org/a%20b?a=x%2by&b=%26&b=1#f?#g"
    ∧ (uri.parse (bytes "https://www.example.org/a%20b?a=x%2by&b=%26&b=1#f?#g")).map uri.query
        = .ok [(bytes "a", bytes "x+y"), (bytes "b", bytes "&"), (bytes "b", bytes "1")] :=
  ⟨C20_str_normal_form (bytes "HTTPS://www.example.org:0443/a%20b?b=%26&a=x+y&b=1#f?#g")
      ⟨true, bytes "www.example.org", 443, bytes "/a%20b", bytes "f?#g",
        [(bytes "a", bytes "x+y"), (bytes "b", bytes "&"), (bytes "b", bytes "1")]⟩
      (by decide) (by decide),
    by decide, by decide⟩

end urilite
